import Mathlib

/-!
# Verification of the wild linker's symbol/section resolution core

Shallow embedding of `wild_lib/src/resolution.rs` and
`src/output_section_part_map.rs` (the resolution core of the `wild` ELF
linker), together with proofs settling the frozen claims about it.

Conventions:
* `SymbolId`, `FileId`, `OutputSectionId` and part ids are modelled as `Nat`.
* Byte strings (`&[u8]`) are modelled as `List Nat`.
* Collaborator state (the symbol database's lookup tables, the parsed ELF
  objects) is modelled by explicit function parameters, so every definition
  stays executable.
-/

set_option autoImplicit false

namespace WildResolution

/-- Association-list lookup (models Rust `HashMap` lookups; the maps in the
source are keyed by (pre-hashed) byte strings or symbol ids and compared by
value equality). -/
def alookup {α β : Type} [DecidableEq α] : List (α × β) → α → Option β
  | [], _ => none
  | (k, v) :: rest, a => if a = k then some v else alookup rest a

@[simp] theorem alookup_nil {α β : Type} [DecidableEq α] (a : α) :
    alookup ([] : List (α × β)) a = none := rfl

@[simp] theorem alookup_cons {α β : Type} [DecidableEq α] (k : α) (v : β)
    (rest : List (α × β)) (a : α) :
    alookup ((k, v) :: rest) a = if a = k then some v else alookup rest a := rfl

/-- Models `<[u8]>::starts_with` / `strip_prefix` success on byte slices. -/
def bytesHavePre {α : Type} [DecidableEq α] : List α → List α → Bool
  | [], _ => true
  | _ :: _, [] => false
  | p :: ps, b :: bs => if p = b then bytesHavePre ps bs else false

/-! ## C1/C10 — `select_symbol` and `SymbolDb::symbol_strength`

`resolution.rs` lines 327–373 and 1132–1153. The symbol database and the
parsed ELF objects are collaborators; they enter as function parameters:
`strength` is the result of `symbol_db.symbol_strength` and `isDyn` tells
whether `symbol_db.symbol_value_flags(id)` contains `ValueFlags::DYNAMIC`.
-/

/-- `SymbolStrength` from `resolution.rs` (lines 375–389). -/
inductive SymbolStrength : Type where
  | undefined : SymbolStrength
  | weak : SymbolStrength
  | strong : SymbolStrength
  | common (size : Nat) : SymbolStrength
  deriving DecidableEq, Repr

open SymbolStrength

/-- The first `for` loop of `select_symbol`: scan alternatives (already
reversed), skipping `DYNAMIC` ones; a `Strong` alternative returns
immediately (`Sum.inl`); otherwise the running maximum common
`(size, alt)` is threaded through and finally returned (`Sum.inr`).
A new common replaces the tracked one only when its size is strictly
greater (`if size <= previous_size { continue; }`). -/
def scanAlts (strength : Nat → SymbolStrength) (isDyn : Nat → Bool) :
    List Nat → Option (Nat × Nat) → Nat ⊕ Option (Nat × Nat)
  | [], maxCommon => Sum.inr maxCommon
  | a :: rest, maxCommon =>
    if isDyn a then scanAlts strength isDyn rest maxCommon
    else
      match strength a with
      | .strong => Sum.inl a
      | .common size =>
        let maxCommon' :=
          match maxCommon with
          | some (previousSize, previousAlt) =>
            if size ≤ previousSize then some (previousSize, previousAlt)
            else some (size, a)
          | none => some (size, a)
        scanAlts strength isDyn rest maxCommon'
      | _ => scanAlts strength isDyn rest maxCommon

/-- `select_symbol` (`resolution.rs` lines 327–373), with the symbol
database's `symbol_strength` and `DYNAMIC`-flag queries abstracted as
function parameters. -/
def selectSymbol (strength : Nat → SymbolStrength) (isDyn : Nat → Bool)
    (symbolId : Nat) (alternatives : List Nat) : Nat :=
  if strength symbolId = .strong then symbolId
  else
    match scanAlts strength isDyn alternatives.reverse none with
    | Sum.inl alt => alt
    | Sum.inr (some (_, alt)) => alt
    | Sum.inr none =>
      if strength symbolId ≠ .undefined then symbolId
      else
        match alternatives.reverse.find? (fun a => decide (strength a ≠ .undefined)) with
        | some alt => alt
        | none => symbolId

/-- One step of the spec's "largest `Common(size)` tracked with strict
greater-than replacement (ties keep the earlier one)". -/
def commonStep : Option (Nat × Nat) → Nat × Nat → Option (Nat × Nat)
  | none, (s, a) => some (s, a)
  | some (ps, pa), (s, a) => if s > ps then some (s, a) else some (ps, pa)

/-- The spec's selection algorithm, written from the spec's words:
1. a `Strong` head wins;
2. otherwise the alternatives are scanned in reverse chain order with
   `DYNAMIC` ones skipped: the first `Strong` one wins, and the largest
   common is tracked with strict `>` replacement;
3. a tracked common wins;
4. otherwise a head that is not `Undefined` wins;
5. otherwise the first alternative in reverse chain order whose strength is
   not `Undefined` wins;
6. otherwise the head is returned. -/
def selectSymbolSpec (strength : Nat → SymbolStrength) (isDyn : Nat → Bool)
    (symbolId : Nat) (alternatives : List Nat) : Nat :=
  if strength symbolId = .strong then symbolId
  else
    let scanned := alternatives.reverse.filter (fun a => !isDyn a)
    match scanned.find? (fun a => decide (strength a = .strong)) with
    | some alt => alt
    | none =>
      let commons := scanned.filterMap (fun a =>
        match strength a with
        | .common s => some (s, a)
        | _ => none)
      match commons.foldl commonStep none with
      | some (_, alt) => alt
      | none =>
        if strength symbolId ≠ .undefined then symbolId
        else
          match alternatives.reverse.find? (fun a => decide (strength a ≠ .undefined)) with
          | some alt => alt
          | none => symbolId

/-- The fields of an ELF symbol table entry that `symbol_strength` reads:
`is_weak()`, `is_common(e)` and `st_size(e)`. -/
structure ElfSymView : Type where
  isWeak : Bool
  isCommon : Bool
  stSize : Nat

/-- A resolved file, as far as `symbol_strength` inspects it: only whether
it is a loaded `ResolvedFile::Object`, and if so the object's symbol table.
`symLookup id` composes `symbol_id.to_input(symbol_id_range)` with
`obj.object.symbol(local_index)` (an `Err` becomes `none`). -/
structure ObjectView : Type where
  symLookup : Nat → Option ElfSymView

/-- The variant of a `ResolvedFile`, keeping only what `symbol_strength`
and `canonicalise_undefined_symbols` inspect. -/
inductive ResolvedFileKind : Type where
  | notLoaded : ResolvedFileKind
  | preludeFile : ResolvedFileKind
  | object (view : ObjectView) : ResolvedFileKind
  | epilogue : ResolvedFileKind

/-- `SymbolDb::symbol_strength` (`resolution.rs` lines 1132–1153):
`fileForSym` is `self.file_id_for_symbol`, `resolved` the resolved-groups
state indexed by file id ((group, file) pairs are flattened to one `Nat`). -/
def symbolStrength (fileForSym : Nat → Nat) (resolved : Nat → ResolvedFileKind)
    (symbolId : Nat) : SymbolStrength :=
  match resolved (fileForSym symbolId) with
  | .object view =>
    match view.symLookup symbolId with
    | none => .undefined
    | some objSymbol =>
      if objSymbol.isWeak then .weak
      else if objSymbol.isCommon then .common objSymbol.stSize
      else .strong
  | _ => .undefined

theorem commonStep_eq_update (mc : Option (Nat × Nat)) (s a : Nat) :
    (match mc with
      | some (ps, pa) => if s ≤ ps then some (ps, pa) else some (s, a)
      | none => some (s, a)) = commonStep mc (s, a) := by
  cases mc with
  | none => rfl
  | some p =>
    obtain ⟨ps, pa⟩ := p
    simp only [commonStep, gt_iff_lt]
    by_cases h : s ≤ ps
    · rw [if_pos h, if_neg (Nat.not_lt.mpr h)]
    · rw [if_neg h, if_pos (Nat.not_le.mp h)]

/-- The fused scanning loop of `select_symbol` equals the composition of a
`DYNAMIC` filter, a search for the first strong alternative, and a fold
computing the largest common with strict-greater-than replacement. -/
theorem scanAlts_eq (st : Nat → SymbolStrength) (dyn : Nat → Bool) :
    ∀ (l : List Nat) (mc : Option (Nat × Nat)),
    scanAlts st dyn l mc =
      match (l.filter (fun a => !dyn a)).find? (fun a => decide (st a = .strong)) with
      | some a => Sum.inl a
      | none => Sum.inr (((l.filter (fun a => !dyn a)).filterMap (fun a =>
          match st a with
          | .common s => some (s, a)
          | _ => none)).foldl commonStep mc) := by
  intro l
  induction l with
  | nil => intro mc; rfl
  | cons a rest ih =>
    intro mc
    by_cases hd : dyn a
    · simp only [scanAlts, hd, if_true, List.filter_cons, Bool.not_true,
        Bool.false_eq_true, if_neg, reduceIte]
      exact ih mc
    · have hd' : dyn a = false := by simpa using hd
      cases hst : st a with
      | strong =>
        simp only [scanAlts, hd', Bool.false_eq_true, if_false, hst]
        have hfilter : (a :: rest).filter (fun x => !dyn x)
            = a :: rest.filter (fun x => !dyn x) := by
          simp [List.filter_cons, hd']
        rw [hfilter, List.find?_cons_of_pos _ (by simp [hst])]
      | common s =>
        simp only [scanAlts, hd', Bool.false_eq_true, if_false, hst]
        rw [ih]
        have hfilter : (a :: rest).filter (fun x => !dyn x)
            = a :: rest.filter (fun x => !dyn x) := by
          simp [List.filter_cons, hd']
        rw [hfilter]
        rw [List.find?_cons_of_neg _ (by simp [hst])]
        rw [List.filterMap_cons]
        simp only [hst, List.foldl_cons]
        rw [commonStep_eq_update]
      | weak =>
        simp only [scanAlts, hd', Bool.false_eq_true, if_false, hst]
        rw [ih]
        have hfilter : (a :: rest).filter (fun x => !dyn x)
            = a :: rest.filter (fun x => !dyn x) := by
          simp [List.filter_cons, hd']
        rw [hfilter]
        rw [List.find?_cons_of_neg _ (by simp [hst])]
        rw [List.filterMap_cons]
        simp [hst]
      | undefined =>
        simp only [scanAlts, hd', Bool.false_eq_true, if_false, hst]
        rw [ih]
        have hfilter : (a :: rest).filter (fun x => !dyn x)
            = a :: rest.filter (fun x => !dyn x) := by
          simp [List.filter_cons, hd']
        rw [hfilter]
        rw [List.find?_cons_of_neg _ (by simp [hst])]
        rw [List.filterMap_cons]
        simp [hst]

/-- C1: `select_symbol` follows the spec's selection algorithm, and
`symbol_strength` is `Undefined` when the symbol's file is not a loaded
`Object`, else `Weak` for an ELF weak symbol, else `Common(st_size)` for an
ELF COMMON symbol, else `Strong`. -/
theorem C1_select_symbol_follows_selection_algorithm :
    (∀ (strength : Nat → SymbolStrength) (isDyn : Nat → Bool)
        (symbolId : Nat) (alternatives : List Nat),
      selectSymbol strength isDyn symbolId alternatives
        = selectSymbolSpec strength isDyn symbolId alternatives) ∧
    (∀ (fileForSym : Nat → Nat) (resolved : Nat → ResolvedFileKind)
        (symbolId : Nat),
      (∀ view, resolved (fileForSym symbolId) ≠ .object view) →
        symbolStrength fileForSym resolved symbolId = .undefined) ∧
    (∀ (fileForSym : Nat → Nat) (resolved : Nat → ResolvedFileKind)
        (symbolId : Nat) (view : ObjectView) (objSymbol : ElfSymView),
      resolved (fileForSym symbolId) = .object view →
      view.symLookup symbolId = some objSymbol →
        symbolStrength fileForSym resolved symbolId =
          (if objSymbol.isWeak then .weak
           else if objSymbol.isCommon then .common objSymbol.stSize
           else .strong)) := by
  refine ⟨?_, ?_, ?_⟩
  · intro strength isDyn symbolId alternatives
    unfold selectSymbol selectSymbolSpec
    by_cases hs : strength symbolId = .strong
    · rw [if_pos hs, if_pos hs]
    · rw [if_neg hs, if_neg hs, scanAlts_eq]
      simp only
      cases hfind : (alternatives.reverse.filter (fun a => !isDyn a)).find?
          (fun a => decide (strength a = .strong)) with
      | some alt => simp only [hfind]
      | none =>
        simp only [hfind]
        cases hfold : ((alternatives.reverse.filter (fun a => !isDyn a)).filterMap
            (fun a => match strength a with
              | .common s => some (s, a)
              | _ => none)).foldl commonStep none with
        | some p => obtain ⟨s, alt⟩ := p; simp only [hfold]
        | none => simp only [hfold]
  · intro fileForSym resolved symbolId hne
    unfold symbolStrength
    cases hres : resolved (fileForSym symbolId) with
    | object view => exact absurd hres (hne view)
    | notLoaded => rfl
    | preludeFile => rfl
    | epilogue => rfl
  · intro fileForSym resolved symbolId view objSymbol hres hsym
    simp only [symbolStrength, hres, hsym]

/-- Closed-form instances discharging the hypotheses of the C1 theorem. -/
theorem C1_select_symbol_follows_selection_algorithm_witness :
    symbolStrength (fun _ => 0) (fun _ => .notLoaded) 5 = .undefined ∧
    symbolStrength (fun _ => 0)
        (fun _ => .object ⟨fun _ => some ⟨true, false, 4⟩⟩) 5 = .weak ∧
    selectSymbol (fun a => if a = 2 then .strong else .weak) (fun _ => false)
        1 [2, 3]
      = selectSymbolSpec (fun a => if a = 2 then .strong else .weak)
          (fun _ => false) 1 [2, 3] := by
  refine ⟨?_, ?_, ?_⟩
  · exact C1_select_symbol_follows_selection_algorithm.2.1
      (fun _ => 0) (fun _ => .notLoaded) 5 (fun view h => by cases h)
  · exact (C1_select_symbol_follows_selection_algorithm.2.2
      (fun _ => 0) (fun _ => .object ⟨fun _ => some ⟨true, false, 4⟩⟩) 5
      ⟨fun _ => some ⟨true, false, 4⟩⟩ ⟨true, false, 4⟩ rfl rfl).trans (by rfl)
  · exact C1_select_symbol_follows_selection_algorithm.1
      (fun a => if a = 2 then .strong else .weak) (fun _ => false) 1 [2, 3]

theorem scanAlts_inl_mem (st : Nat → SymbolStrength) (dyn : Nat → Bool) :
    ∀ (l : List Nat) (mc : Option (Nat × Nat)) (a : Nat),
    scanAlts st dyn l mc = Sum.inl a → a ∈ l := by
  intro l
  induction l with
  | nil => intro mc a h; cases h
  | cons x rest ih =>
    intro mc a h
    by_cases hd : dyn x
    · simp only [scanAlts, hd, if_true] at h
      exact List.mem_cons_of_mem x (ih _ _ h)
    · have hd' : dyn x = false := by simpa using hd
      simp only [scanAlts, hd', Bool.false_eq_true, if_false] at h
      cases hst : st x with
      | strong =>
        rw [hst] at h
        cases h
        exact List.mem_cons_self x rest
      | common s =>
        rw [hst] at h
        exact List.mem_cons_of_mem x (ih _ _ h)
      | weak =>
        rw [hst] at h
        exact List.mem_cons_of_mem x (ih _ _ h)
      | undefined =>
        rw [hst] at h
        exact List.mem_cons_of_mem x (ih _ _ h)

theorem scanAlts_inr_mem (st : Nat → SymbolStrength) (dyn : Nat → Bool) :
    ∀ (l : List Nat) (mc : Option (Nat × Nat)) (s a : Nat),
    scanAlts st dyn l mc = Sum.inr (some (s, a)) → mc = some (s, a) ∨ a ∈ l := by
  intro l
  induction l with
  | nil =>
    intro mc s a h
    left
    simpa [scanAlts] using h
  | cons x rest ih =>
    intro mc s a h
    by_cases hd : dyn x
    · simp only [scanAlts, hd, if_true] at h
      rcases ih _ _ _ h with h' | h'
      · exact Or.inl h'
      · exact Or.inr (List.mem_cons_of_mem x h')
    · have hd' : dyn x = false := by simpa using hd
      simp only [scanAlts, hd', Bool.false_eq_true, if_false] at h
      cases hst : st x with
      | strong => rw [hst] at h; cases h
      | common size =>
        rw [hst] at h
        rcases ih _ _ _ h with h' | h'
        · cases hmc : mc with
          | none =>
            rw [hmc] at h'
            simp only at h'
            right
            obtain ⟨hs, ha⟩ := Prod.mk.injEq .. ▸ (Option.some.injEq .. ▸ h')
            exact ha ▸ List.mem_cons_self x rest
          | some p =>
            obtain ⟨ps, pa⟩ := p
            rw [hmc] at h'
            simp only at h'
            by_cases hle : size ≤ ps
            · rw [if_pos hle] at h'
              exact Or.inl h'
            · rw [if_neg hle] at h'
              right
              obtain ⟨hs, ha⟩ := Prod.mk.injEq .. ▸ (Option.some.injEq .. ▸ h')
              exact ha ▸ List.mem_cons_self x rest
        · exact Or.inr (List.mem_cons_of_mem x h')
      | weak =>
        rw [hst] at h
        rcases ih _ _ _ h with h' | h'
        · exact Or.inl h'
        · exact Or.inr (List.mem_cons_of_mem x h')
      | undefined =>
        rw [hst] at h
        rcases ih _ _ _ h with h' | h'
        · exact Or.inl h'
        · exact Or.inr (List.mem_cons_of_mem x h')

/-- C10: `select_symbol` only ever returns the head symbol id or one of the
ids in the alternatives list. -/
theorem C10_select_symbol_returns_head_or_alternative
    (strength : Nat → SymbolStrength) (isDyn : Nat → Bool)
    (symbolId : Nat) (alternatives : List Nat) :
    selectSymbol strength isDyn symbolId alternatives = symbolId ∨
      selectSymbol strength isDyn symbolId alternatives ∈ alternatives := by
  unfold selectSymbol
  by_cases hs : strength symbolId = .strong
  · rw [if_pos hs]; exact Or.inl rfl
  · rw [if_neg hs]
    cases hscan : scanAlts strength isDyn alternatives.reverse none with
    | inl alt =>
      simp only
      exact Or.inr (List.mem_reverse.mp
        (scanAlts_inl_mem strength isDyn _ _ _ hscan))
    | inr mc =>
      cases hmc : mc with
      | some p =>
        obtain ⟨s, alt⟩ := p
        simp only
        rcases scanAlts_inr_mem strength isDyn _ _ _ _ (hmc ▸ hscan) with h | h
        · cases h
        · exact Or.inr (List.mem_reverse.mp h)
      | none =>
        simp only
        by_cases hu : strength symbolId ≠ .undefined
        · rw [if_pos hu]; exact Or.inl rfl
        · rw [if_neg hu]
          cases hfind : alternatives.reverse.find?
              (fun a => decide (strength a ≠ .undefined)) with
          | some alt =>
            simp only
            exact Or.inr (List.mem_reverse.mp
              (List.mem_of_find?_eq_some hfind))
          | none => exact Or.inl rfl

/-! ## C2 — `resolve_symbol` (`resolution.rs` lines 951–1001)

The collaborator state entering `resolve_symbol` is abstracted into
parameters: `globalLookup` is `resources.symbol_db.global_names.get` for
this entry's name, `fileForSym` is `symbol_db.file_id_for_symbol`,
`inputToId` is `obj.symbol_id_range.input_to_id`, and `preludeFileId` is
`PRELUDE_FILE_ID`. A `SymbolId` is undefined exactly when it is the
sentinel id `0`. The effects are returned as data: the written definition
slot, the file passed to `request_file_id` (if any), and the records pushed
onto `undefined_symbols_out`. -/

/-- An `UndefinedSymbol` record (`resolution.rs` lines 693–699). -/
structure UndefinedSymbolRec : Type where
  ignoreIfLoaded : Option Nat
  name : List Nat
  symbolId : Nat
  deriving DecidableEq, Repr

/-- The observable effects of one `resolve_symbol` call. -/
structure ResolveActions : Type where
  definitionOut : Nat
  requested : Option Nat
  pushed : List UndefinedSymbolRec
  deriving DecidableEq, Repr

/-- `resolve_symbol`. Returns `none` when one of the source's assertions
(`debug_assert_bail!(!local_symbol.is_local())`,
`assert!(!local_symbol.is_definition(e))`) would fire. -/
def resolveSymbol (preludeFileId objFileId : Nat) (fileForSym : Nat → Nat)
    (inputToId : Nat → Nat) (localSymbolIndex : Nat)
    (isLocal isWeak isDefinition : Bool) (nameBytes : List Nat)
    (globalLookup : Option Nat) (definitionIn : Nat) : Option ResolveActions :=
  if definitionIn ≠ 0 ∨ localSymbolIndex = 0 then
    some ⟨definitionIn, none, []⟩
  else if isLocal then none
  else if isDefinition then none
  else
    match globalLookup with
    | some symbolId =>
      let symbolFileId := fileForSym symbolId
      if symbolFileId ≠ objFileId ∧ isWeak = false then
        some ⟨symbolId, some symbolFileId, []⟩
      else if symbolFileId ≠ preludeFileId then
        some ⟨symbolId, none,
          [⟨some symbolFileId, nameBytes, inputToId localSymbolIndex⟩]⟩
      else some ⟨symbolId, none, []⟩
    | none =>
      some ⟨definitionIn, none,
        [⟨none, nameBytes, inputToId localSymbolIndex⟩]⟩

/-- Claim C2 as stated: on a hit the definition slot is set to the
canonical id; `request_file_id(f)` is invoked iff `f` differs from the
current file and the reference is not weak; and an `UndefinedSymbol` record
with `ignore_if_loaded = Some(f)` is pushed iff the reference is weak and
`f` is neither the current file nor the Prelude. -/
def resolveSymbolHitClaim : Prop :=
  ∀ (preludeFileId objFileId : Nat) (fileForSym inputToId : Nat → Nat)
    (localSymbolIndex : Nat) (isWeak : Bool) (nameBytes : List Nat)
    (symbolId : Nat) (actions : ResolveActions),
  localSymbolIndex ≠ 0 →
  resolveSymbol preludeFileId objFileId fileForSym inputToId localSymbolIndex
      false isWeak false nameBytes (some symbolId) 0 = some actions →
    actions.definitionOut = symbolId ∧
    (actions.requested ≠ none ↔
      (fileForSym symbolId ≠ objFileId ∧ isWeak = false)) ∧
    (actions.pushed ≠ [] ↔
      (isWeak = true ∧ fileForSym symbolId ≠ objFileId ∧
        fileForSym symbolId ≠ preludeFileId))

/-- C2, counterexample: when the canonical symbol's owning file *is* the
current file (and is not the Prelude), the code pushes an
`UndefinedSymbol` record even though the reference is not weak, so the
claimed "iff weak and f differs from the current file" fails. -/
theorem C2_resolve_symbol_hit_counterexample : ¬ resolveSymbolHitClaim := by
  intro h
  have h1 := h 0 1 (fun _ => 1) (fun i => i) 3 false [7] 5
      ⟨5, none, [⟨some 1, [7], 3⟩]⟩ (by decide) (by decide)
  have h2 := h1.2.2.mp (by decide)
  exact absurd h2.1 (by decide)

/-- C2 (amended): on a hit the definition slot is set to the canonical id;
`request_file_id(f)` is invoked iff `f` differs from the current file and
the reference is not weak; an `UndefinedSymbol { ignore_if_loaded: Some(f) }`
record is pushed iff `f` is not the Prelude and (`f` is the current file or
the reference is weak); no other record is pushed on a hit. -/
theorem C2_resolve_symbol_hit (preludeFileId objFileId : Nat)
    (fileForSym inputToId : Nat → Nat) (localSymbolIndex : Nat)
    (isWeak : Bool) (nameBytes : List Nat) (symbolId : Nat)
    (actions : ResolveActions)
    (hidx : localSymbolIndex ≠ 0)
    (hrun : resolveSymbol preludeFileId objFileId fileForSym inputToId
      localSymbolIndex false isWeak false nameBytes (some symbolId) 0
      = some actions) :
    actions.definitionOut = symbolId ∧
    (actions.requested ≠ none ↔
      (fileForSym symbolId ≠ objFileId ∧ isWeak = false)) ∧
    (actions.requested = none ∨ actions.requested = some (fileForSym symbolId)) ∧
    (actions.pushed ≠ [] ↔
      (fileForSym symbolId ≠ preludeFileId ∧
        (fileForSym symbolId = objFileId ∨ isWeak = true))) ∧
    (actions.pushed = [] ∨ actions.pushed =
      [⟨some (fileForSym symbolId), nameBytes, inputToId localSymbolIndex⟩]) := by
  unfold resolveSymbol at hrun
  rw [if_neg (by simp [hidx])] at hrun
  rw [if_neg (by simp)] at hrun
  rw [if_neg (by simp)] at hrun
  simp only at hrun
  by_cases hreq : fileForSym symbolId ≠ objFileId ∧ isWeak = false
  · rw [if_pos hreq] at hrun
    obtain ⟨rfl⟩ := Option.some.injEq .. ▸ hrun.symm
    refine ⟨rfl, ?_, Or.inr rfl, ?_, Or.inl rfl⟩
    · simp [hreq]
    · constructor
      · intro hne; exact absurd rfl hne
      · rintro ⟨hnp, hcur | hw⟩
        · exact absurd hcur hreq.1
        · rw [hreq.2] at hw; cases hw
  · rw [if_neg hreq] at hrun
    by_cases hpre : fileForSym symbolId ≠ preludeFileId
    · rw [if_pos hpre] at hrun
      obtain ⟨rfl⟩ := Option.some.injEq .. ▸ hrun.symm
      refine ⟨rfl, ?_, Or.inl rfl, ?_, Or.inr rfl⟩
      · simp only [ne_eq, not_true_eq_false, false_iff]
        exact hreq
      · simp only [ne_eq, List.cons_ne_self, not_false_eq_true, true_iff]
        refine ⟨hpre, ?_⟩
        by_cases hcur : fileForSym symbolId = objFileId
        · exact Or.inl hcur
        · right
          cases hw : isWeak with
          | true => rfl
          | false => exact absurd ⟨hcur, hw⟩ hreq
    · rw [if_neg hpre] at hrun
      obtain ⟨rfl⟩ := Option.some.injEq .. ▸ hrun.symm
      refine ⟨rfl, ?_, Or.inl rfl, ?_, Or.inl rfl⟩
      · simp only [ne_eq, not_true_eq_false, false_iff]
        exact hreq
      · simp only [ne_eq, not_true_eq_false, false_iff]
        rintro ⟨hnp, -⟩
        exact hnp (not_not.mp hpre)

/-- Closed instance discharging the hypotheses of the amended C2 theorem:
a weak reference to a symbol owned by a different, non-Prelude file pushes
exactly one ignore-if-loaded record and requests nothing. -/
theorem C2_resolve_symbol_hit_witness :
    (3 : Nat) ≠ 0 ∧
    (resolveSymbol 0 1 (fun _ => 2) (fun i => i) 3 false true false [7]
        (some 5) 0 = some ⟨5, none, [⟨some 2, [7], 3⟩]⟩) ∧
    ((⟨5, none, [⟨some 2, [7], 3⟩]⟩ : ResolveActions).pushed ≠ []) := by
  refine ⟨by decide, by decide, ?_⟩
  exact (C2_resolve_symbol_hit 0 1 (fun _ => 2) (fun i => i) 3 true [7] 5
    ⟨5, none, [⟨some 2, [7], 3⟩]⟩ (by decide) (by decide)).2.2.2.1.mpr
    (by decide)

/-! ## C4 — merge-string deduplication (`resolution.rs` lines 467–555, 598–617)

`MergeStringsSectionBucket::add_string` / `get`, and the
`bucket_offsets[i] = bucket_offsets[i-1] + buckets[i-1].len()` loop from
`merge_strings`. The pre-hashed string map (`PassThroughHashMap`) is keyed
by the string contents, modelled as an association list; the hash function
is a parameter. -/

def MERGE_STRING_BUCKETS : Nat := 32

/-- `MergeStringsSectionBucket` (`resolution.rs` lines 480–497). -/
structure MergeStringsSectionBucket : Type where
  strings : List (List Nat)
  nextOffset : Nat
  totallyAdded : Nat
  totallyAddedStrings : Nat
  stringOffsets : List (List Nat × Nat)
  deriving DecidableEq, Repr

/-- `MergeStringsSectionBucket::add_string`: returns the offset within this
bucket, deduplicating against an already-present identical string. -/
def addString (b : MergeStringsSectionBucket) (bytes : List Nat) :
    Nat × MergeStringsSectionBucket :=
  let b1 := { b with
    totallyAdded := b.totallyAdded + bytes.length
    totallyAddedStrings := b.totallyAddedStrings + 1 }
  match alookup b1.stringOffsets bytes with
  | some offset => (offset, b1)
  | none =>
    let offset := b1.nextOffset
    (offset, { b1 with
      nextOffset := b1.nextOffset + bytes.length
      strings := b1.strings ++ [bytes]
      stringOffsets := (bytes, offset) :: b1.stringOffsets })

/-- `MergeStringsSectionBucket::get`. -/
def bucketGet (b : MergeStringsSectionBucket) (bytes : List Nat) : Option Nat :=
  alookup b.stringOffsets bytes

/-- `MergeStringsSectionBucket::len` (`self.next_offset`). -/
def bucketLen (b : MergeStringsSectionBucket) : Nat := b.nextOffset

/-- State of the `bucket_offsets` array after the `merge_strings` loop
`for i in 1..32` has run up to and including `i = k`; the array starts
zero-initialised (`Default`). -/
def bucketOffsetsUpTo (len : Nat → Nat) : Nat → Nat → Nat
  | 0 => fun _ => 0
  | k + 1 =>
    Function.update (bucketOffsetsUpTo len k) (k + 1)
      (bucketOffsetsUpTo len k k + len k)

/-- The final `bucket_offsets` array: the loop body has run for
`i = 1 .. MERGE_STRING_BUCKETS - 1`. -/
def bucketOffsets (len : Nat → Nat) : Nat → Nat :=
  bucketOffsetsUpTo len (MERGE_STRING_BUCKETS - 1)

/-- `MergeStringsSection::get`: bucket by `hash % 32`, then add the bucket's
base offset to the offset within the bucket. -/
def mergeSectionGet (hash : List Nat → Nat)
    (buckets : Nat → MergeStringsSectionBucket) (offsets : Nat → Nat)
    (bytes : List Nat) : Option Nat :=
  let bucketIndex := hash bytes % MERGE_STRING_BUCKETS
  (bucketGet (buckets bucketIndex) bytes).map
    (fun offset => offsets bucketIndex + offset)

theorem bucketOffsetsUpTo_stable (len : Nat → Nat) :
    ∀ (k j : Nat), j ≤ k →
      bucketOffsetsUpTo len k j = bucketOffsetsUpTo len j j := by
  intro k
  induction k with
  | zero =>
    intro j hj
    rw [Nat.le_zero.mp hj]
  | succ k ih =>
    intro j hj
    rcases Nat.lt_or_ge j (k + 1) with hlt | hge
    · have hj' : j ≤ k := Nat.lt_succ_iff.mp hlt
      have hstep : bucketOffsetsUpTo len (k + 1)
          = Function.update (bucketOffsetsUpTo len k) (k + 1)
              (bucketOffsetsUpTo len k k + len k) := rfl
      rw [hstep, Function.update_noteq (Nat.ne_of_lt hlt)]
      exact ih j hj'
    · rw [Nat.le_antisymm hj hge]

/-- C4: first addition of a string is assigned the bucket's current
`next_offset` and advances it by the string's byte length (terminator
included in the bytes); re-adding an identical string returns the same
offset without extending the bucket; `bucket_offsets` is the prefix sum of
the bucket lengths; and `MergeStringsSection::get` of a present string is
`bucket_offsets[bucket] + offset_within_bucket`. -/
theorem C4_merge_string_offsets :
    (∀ (b : MergeStringsSectionBucket) (bytes : List Nat),
      alookup b.stringOffsets bytes = none →
        (addString b bytes).1 = b.nextOffset ∧
        (addString b bytes).2.nextOffset = b.nextOffset + bytes.length ∧
        (addString b bytes).2.strings = b.strings ++ [bytes]) ∧
    (∀ (b : MergeStringsSectionBucket) (bytes : List Nat) (offset : Nat),
      alookup b.stringOffsets bytes = some offset →
        (addString b bytes).1 = offset ∧
        (addString b bytes).2.nextOffset = b.nextOffset ∧
        (addString b bytes).2.strings = b.strings) ∧
    (∀ (b : MergeStringsSectionBucket) (bytes : List Nat),
      (addString (addString b bytes).2 bytes).1 = (addString b bytes).1 ∧
      (addString (addString b bytes).2 bytes).2.nextOffset
        = (addString b bytes).2.nextOffset ∧
      (addString (addString b bytes).2 bytes).2.strings
        = (addString b bytes).2.strings) ∧
    (∀ (len : Nat → Nat),
      bucketOffsets len 0 = 0 ∧
      ∀ i, 1 ≤ i → i < MERGE_STRING_BUCKETS →
        bucketOffsets len i = bucketOffsets len (i - 1) + len (i - 1)) ∧
    (∀ (hash : List Nat → Nat) (buckets : Nat → MergeStringsSectionBucket)
        (offsets : Nat → Nat) (bytes : List Nat) (offset : Nat),
      bucketGet (buckets (hash bytes % MERGE_STRING_BUCKETS)) bytes
          = some offset →
        mergeSectionGet hash buckets offsets bytes
          = some (offsets (hash bytes % MERGE_STRING_BUCKETS) + offset)) := by
  refine ⟨?_, ?_, ?_, ?_, ?_⟩
  · intro b bytes hnone
    simp [addString, hnone]
  · intro b bytes offset hsome
    simp [addString, hsome]
  · intro b bytes
    cases hlook : alookup b.stringOffsets bytes with
    | some offset => simp [addString, hlook]
    | none => simp [addString, hlook, alookup_cons]
  · intro len
    constructor
    · rw [show bucketOffsets len 0
          = bucketOffsetsUpTo len (MERGE_STRING_BUCKETS - 1) 0 from rfl]
      rw [bucketOffsetsUpTo_stable len _ 0 (Nat.zero_le _)]
      rfl
    · intro i h1 h32
      cases i with
      | zero => cases h1
      | succ j =>
        have h32' : j + 1 < 32 := h32
        unfold bucketOffsets
        simp only [Nat.add_sub_cancel]
        rw [show MERGE_STRING_BUCKETS - 1 = 31 from rfl]
        rw [bucketOffsetsUpTo_stable len _ (j + 1) (show j + 1 ≤ 31 by omega)]
        rw [bucketOffsetsUpTo_stable len _ j (show j ≤ 31 by omega)]
        have hstep : bucketOffsetsUpTo len (j + 1)
            = Function.update (bucketOffsetsUpTo len j) (j + 1)
                (bucketOffsetsUpTo len j j + len j) := rfl
        rw [hstep, Function.update_same]
  · intro hash buckets offsets bytes offset hget
    simp [mergeSectionGet, hget]

/-- Closed instances discharging the hypotheses of the C4 theorem. -/
theorem C4_merge_string_offsets_witness :
    (addString ⟨[], 0, 0, 0, []⟩ [65, 0]).1 = 0 ∧
    bucketOffsets (fun _ => 2) 1 = bucketOffsets (fun _ => 2) 0 + 2 ∧
    mergeSectionGet (fun _ => 0) (fun _ => ⟨[[65, 0]], 2, 2, 1, [([65, 0], 0)]⟩)
        (fun _ => 10) [65, 0] = some 10 := by
  refine ⟨?_, ?_, ?_⟩
  · exact (C4_merge_string_offsets.1 ⟨[], 0, 0, 0, []⟩ [65, 0] (by decide)).1
  · exact C4_merge_string_offsets.2.2.2.1 (fun _ => 2) |>.2 1 (by decide)
      (by decide)
  · exact (C4_merge_string_offsets.2.2.2.2 (fun _ => 0)
      (fun _ => ⟨[[65, 0]], 2, 2, 1, [([65, 0], 0)]⟩) (fun _ => 10) [65, 0] 0
      (by decide)).trans (by decide)

/-! ## C9 — parsing a merge-string section
(`StringToMerge::take_hashed`, `resolution.rs` lines 1057–1069, and the
parse loop of `UnresolvedMergeStringsFileSection::new`, lines 1039–1055). -/

/-- `memchr::memchr(0, source)`: index of the first zero byte. -/
def memchr0 : List Nat → Option Nat
  | [] => none
  | b :: rest => if b = 0 then some 0 else (memchr0 rest).map (· + 1)

/-- `StringToMerge::take_hashed`: split off everything up to and including
the first null terminator; `none` models the
"String in merge-string section is not null-terminated" error. -/
def takeHashed (source : List Nat) : Option (List Nat × List Nat) :=
  match memchr0 source with
  | none => none
  | some i => some (source.take (i + 1), source.drop (i + 1))

/-- The `while !remaining.is_empty()` loop of
`UnresolvedMergeStringsFileSection::new`, with `take_hashed` inlined
(`take_hashed` = `memchr` + `split_at`); collects the taken strings in
order (bucketing each by `hash % 32` is applied to this list downstream). -/
def parseMergeStrings : List Nat → Option (List (List Nat))
  | [] => some []
  | b :: rest0 =>
    match memchr0 (b :: rest0) with
    | none => none
    | some i =>
      (parseMergeStrings ((b :: rest0).drop (i + 1))).map
        (fun pieces => ((b :: rest0).take (i + 1)) :: pieces)
  termination_by l => l.length
  decreasing_by
    simp only [List.length_drop, List.length_cons]
    omega

theorem memchr0_lt : ∀ (l : List Nat) (i : Nat), memchr0 l = some i → i < l.length := by
  intro l
  induction l with
  | nil => intro i h; cases h
  | cons b rest ih =>
    intro i h
    unfold memchr0 at h
    by_cases hb : b = 0
    · rw [if_pos hb] at h
      cases h
      simp
    · rw [if_neg hb] at h
      cases hm : memchr0 rest with
      | none => rw [hm] at h; cases h
      | some j =>
        rw [hm] at h
        obtain rfl : j + 1 = i := Option.some.injEq .. ▸ h
        have := ih j hm
        simp only [List.length_cons]
        omega

theorem memchr0_take_last : ∀ (l : List Nat) (i : Nat), memchr0 l = some i →
    (l.take (i + 1)).getLast? = some 0 := by
  intro l
  induction l with
  | nil => intro i h; cases h
  | cons b rest ih =>
    intro i h
    unfold memchr0 at h
    by_cases hb : b = 0
    · rw [if_pos hb] at h
      cases h
      simp [hb]
    · rw [if_neg hb] at h
      cases hm : memchr0 rest with
      | none => rw [hm] at h; cases h
      | some j =>
        rw [hm] at h
        obtain rfl : j + 1 = i := Option.some.injEq .. ▸ h
        have hIH := ih j hm
        rw [show (b :: rest).take (j + 1 + 1) = b :: rest.take (j + 1) from rfl]
        cases htake : rest.take (j + 1) with
        | nil => rw [htake] at hIH; cases hIH
        | cons c l'' =>
          rw [htake] at hIH
          rw [List.getLast?_cons_cons]
          exact hIH

theorem memchr0_none_getLast : ∀ (l : List Nat), memchr0 l = none →
    l.getLast? ≠ some 0 := by
  intro l
  induction l with
  | nil => intro _ h; cases h
  | cons b rest ih =>
    intro h
    unfold memchr0 at h
    by_cases hb : b = 0
    · rw [if_pos hb] at h; cases h
    · rw [if_neg hb] at h
      have hrest : memchr0 rest = none := by
        cases hm : memchr0 rest with
        | none => rfl
        | some j => rw [hm] at h; cases h
      cases rest with
      | nil =>
        simp only [List.getLast?_singleton, ne_eq, Option.some.injEq]
        exact hb
      | cons c l'' =>
        rw [List.getLast?_cons_cons]
        exact ih hrest

/-- Joining non-empty null-terminated pieces yields `[]` or a list ending
in a null byte. -/
theorem flatten_null_terminated_getLast :
    ∀ (pieces : List (List Nat)),
      (∀ p ∈ pieces, p ≠ [] ∧ p.getLast? = some 0) →
      pieces.flatten = [] ∨ pieces.flatten.getLast? = some 0 := by
  intro pieces
  induction pieces with
  | nil => intro _; exact Or.inl rfl
  | cons p rest ih =>
    intro hall
    have hp := hall p (List.mem_cons_self p rest)
    have hrest := ih (fun q hq => hall q (List.mem_cons_of_mem p hq))
    right
    rw [List.flatten_cons]
    rcases hrest with hnil | hlast
    · rw [hnil, List.append_nil]
      exact hp.2
    · have hne : rest.flatten ≠ [] := by
        intro hc
        rw [hc] at hlast
        cases hlast
      rw [List.getLast?_append_of_ne_nil _ hne]
      exact hlast

theorem parseMergeStrings_main : ∀ (n : Nat) (source : List Nat),
    source.length ≤ n →
    ((parseMergeStrings source).isSome ↔
      (source = [] ∨ source.getLast? = some 0)) ∧
    (∀ pieces, parseMergeStrings source = some pieces →
      pieces.flatten = source ∧ ∀ p ∈ pieces, p ≠ [] ∧ p.getLast? = some 0) := by
  intro n
  induction n with
  | zero =>
    intro source hlen
    obtain rfl : source = [] := List.length_eq_zero.mp (Nat.le_zero.mp hlen)
    constructor
    · simp [parseMergeStrings]
    · intro pieces hp
      rw [parseMergeStrings] at hp
      obtain rfl : ([] : List (List Nat)) = pieces := Option.some.injEq .. ▸ hp
      exact ⟨rfl, by intro p hp'; cases hp'⟩
  | succ n ih =>
    intro source hlen
    cases source with
    | nil =>
      constructor
      · simp [parseMergeStrings]
      · intro pieces hp
        rw [parseMergeStrings] at hp
        obtain rfl : ([] : List (List Nat)) = pieces := Option.some.injEq .. ▸ hp
        exact ⟨rfl, by intro p hp'; cases hp'⟩
    | cons b rest0 =>
      cases hm : memchr0 (b :: rest0) with
      | none =>
        have hrun : parseMergeStrings (b :: rest0) = none := by
          rw [parseMergeStrings, hm]
        constructor
        · rw [hrun]
          simp only [Option.isSome_none, Bool.false_eq_true, false_iff]
          rintro (hnil | hlast)
          · cases hnil
          · exact memchr0_none_getLast _ hm hlast
        · intro pieces hp
          rw [hrun] at hp
          cases hp
      | some i =>
        have hilt := memchr0_lt _ _ hm
        have hsplit : (b :: rest0).take (i + 1) ++ (b :: rest0).drop (i + 1)
            = b :: rest0 := List.take_append_drop _ _
        have hlen' : ((b :: rest0).drop (i + 1)).length ≤ n := by
          simp only [List.length_drop, List.length_cons]
          simp only [List.length_cons] at hlen
          omega
        have hIH := ih ((b :: rest0).drop (i + 1)) hlen'
        have hrun : parseMergeStrings (b :: rest0)
            = (parseMergeStrings ((b :: rest0).drop (i + 1))).map
                (fun pieces => ((b :: rest0).take (i + 1)) :: pieces) := by
          rw [parseMergeStrings, hm]
        have htake_last := memchr0_take_last _ _ hm
        have htake_ne : (b :: rest0).take (i + 1) ≠ [] := by
          intro hc
          rw [hc] at htake_last
          cases htake_last
        constructor
        · rw [hrun, Option.isSome_map']
          rw [hIH.1]
          constructor
          · rintro (hdnil | hdlast)
            · right
              rw [← hsplit, hdnil, List.append_nil]
              exact htake_last
            · right
              have hdne : (b :: rest0).drop (i + 1) ≠ [] := by
                intro hc
                rw [hc] at hdlast
                cases hdlast
              rw [← hsplit, List.getLast?_append_of_ne_nil _ hdne]
              exact hdlast
          · rintro (hnil | hlast)
            · cases hnil
            · cases hdrop : (b :: rest0).drop (i + 1) with
              | nil => exact Or.inl rfl
              | cons c l'' =>
                right
                rw [← hsplit, hdrop] at hlast
                rw [List.getLast?_append_of_ne_nil _ (by simp)] at hlast
                exact hlast
        · intro pieces hp
          rw [hrun] at hp
          cases hrest : parseMergeStrings ((b :: rest0).drop (i + 1)) with
          | none => rw [hrest] at hp; cases hp
          | some ps =>
            rw [hrest] at hp
            obtain rfl : (b :: rest0).take (i + 1) :: ps = pieces :=
              Option.some.injEq .. ▸ hp
            have hps := hIH.2 ps hrest
            constructor
            · rw [List.flatten_cons, hps.1, hsplit]
            · intro p hpmem
              rcases List.mem_cons.mp hpmem with rfl | hpmem'
              · exact ⟨htake_ne, htake_last⟩
              · exact hps.2 p hpmem'

/-- C9: parsing a merge-string section's bytes succeeds iff the bytes are a
concatenation of null-terminated strings (equivalently, the data is empty
or ends with a null byte); on success the retained strings include their
null terminators and concatenate back to the input; unterminated trailing
bytes yield the error (`none`). -/
theorem C9_merge_string_parsing (source : List Nat) :
    ((parseMergeStrings source).isSome ↔
      (source = [] ∨ source.getLast? = some 0)) ∧
    ((parseMergeStrings source).isSome ↔
      (∃ pieces : List (List Nat),
        (∀ p ∈ pieces, p ≠ [] ∧ p.getLast? = some 0) ∧
        pieces.flatten = source)) ∧
    (∀ pieces, parseMergeStrings source = some pieces →
      pieces.flatten = source ∧ ∀ p ∈ pieces, p ≠ [] ∧ p.getLast? = some 0) := by
  have hmain := parseMergeStrings_main source.length source (Nat.le_refl _)
  refine ⟨hmain.1, ?_, hmain.2⟩
  constructor
  · intro hsome
    obtain ⟨pieces, hp⟩ := Option.isSome_iff_exists.mp hsome
    have := hmain.2 pieces hp
    exact ⟨pieces, this.2, this.1⟩
  · rintro ⟨pieces, hterm, rfl⟩
    rw [hmain.1]
    rcases flatten_null_terminated_getLast pieces hterm with hnil | hlast
    · exact Or.inl hnil
    · exact Or.inr hlast

/-- Closed instances discharging the hypotheses of the C9 theorem: the
bytes `"A\0B\0"` parse into their two null-terminated strings, and a
trailing unterminated byte is a fatal error. -/
theorem C9_merge_string_parsing_witness :
    parseMergeStrings [65, 0, 66, 0] = some [[65, 0], [66, 0]] ∧
    [[65, 0], [66, 0]].flatten = [65, 0, 66, 0] ∧
    parseMergeStrings [65, 0, 66] = none := by
  have h1 : parseMergeStrings [65, 0, 66, 0] = some [[65, 0], [66, 0]] := by
    rw [parseMergeStrings]
    norm_num [memchr0]
    rw [parseMergeStrings]
    norm_num [memchr0]
    rw [parseMergeStrings]
  have h3 : parseMergeStrings [65, 0, 66] = none := by
    rw [parseMergeStrings]
    norm_num [memchr0]
    rw [parseMergeStrings]
    norm_num [memchr0]
  refine ⟨h1, ?_, h3⟩
  exact ((C9_merge_string_parsing [65, 0, 66, 0]).2.2 [[65, 0], [66, 0]] h1).1

/-! ## C8 — section classification (`resolve_sections`, `resolution.rs`
lines 820–899)

Per input section. Collaborators entering as parameters:
`classification` is the result of `UnloadedSection::from_section`;
`builtinRetain p` is
`p.output_section_id().built_in_details().section_flags.should_retain()`;
`sectionRetain` is `SectionFlags::from_header(input_section).should_retain()`
(the *input* section's retention flag); `stripDebug` is `args.strip_debug`.
The merge-string data and the `Loaded`/`LoadedDebugInfo` variants (never
produced here) are omitted from the slot payloads. -/

/-- `TemporaryPartId` (from `part_id.rs`), as `resolve_sections` consumes
it: a custom id carries its section name and alignment. -/
inductive TemporaryPartIdM : Type where
  | custom (name : List Nat) (alignment : Nat) : TemporaryPartIdM
  | builtIn (partId : Nat) : TemporaryPartIdM
  | ehFrameData : TemporaryPartIdM
  deriving DecidableEq, Repr

/-- The part of `UnloadedSection` that `resolve_sections` reads. -/
structure UnloadedSectionM : Type where
  partId : TemporaryPartIdM
  isStringMerge : Bool
  deriving DecidableEq, Repr

/-- A `PartId` value stored in a slot: either `part_id::CUSTOM_PLACEHOLDER`
or a concrete built-in part id. -/
inductive PartRef : Type where
  | placeholder : PartRef
  | builtIn (id : Nat) : PartRef
  deriving DecidableEq, Repr

/-- `SectionSlot` variants producible by `resolve_sections`. -/
inductive SectionSlotM : Type where
  | discard : SectionSlotM
  | unloaded (p : PartRef) : SectionSlotM
  | mustLoad (p : PartRef) : SectionSlotM
  | ehFrameData (index : Nat) : SectionSlotM
  | mergeStrings (p : PartRef) : SectionSlotM
  | unloadedDebugInfo (p : PartRef) : SectionSlotM
  deriving DecidableEq, Repr

/-- The `CustomSectionDetails` record contributed to `custom_sections`. -/
structure CustomSectionDetailsM : Type where
  name : List Nat
  alignment : Nat
  index : Nat
  deriving DecidableEq, Repr

/-- The bytes of `".debug_"`. -/
def debugBytes : List Nat := [46, 100, 101, 98, 117, 103, 95]

/-- The per-section body of `resolve_sections`: produces the section's slot
and its `custom_sections` contribution (if any). -/
def resolveSectionSlot (builtinRetain : Nat → Bool) (stripDebug : Bool)
    (sectionRetain : Bool) (classification : Option UnloadedSectionM)
    (sectionIndex : Nat) : SectionSlotM × Option CustomSectionDetailsM :=
  match classification with
  | none => (.discard, none)
  | some unloadedSection =>
    let partId : PartRef :=
      match unloadedSection.partId with
      | .builtIn p => .builtIn p
      | _ => .placeholder
    let customSection : Option CustomSectionDetailsM :=
      match unloadedSection.partId with
      | .custom name alignment => some ⟨name, alignment, sectionIndex⟩
      | _ => none
    if unloadedSection.isStringMerge then
      (.mergeStrings partId, customSection)
    else
      match unloadedSection.partId with
      | .builtIn id =>
        if builtinRetain id then (.mustLoad (.builtIn id), customSection)
        else (.unloaded (.builtIn id), customSection)
      | .custom name _alignment =>
        if bytesHavePre debugBytes name then
          if stripDebug then (.discard, none)
          else (.unloadedDebugInfo .placeholder, customSection)
        else if sectionRetain then (.mustLoad .placeholder, customSection)
        else (.unloaded .placeholder, customSection)
      | .ehFrameData => (.ehFrameData sectionIndex, customSection)

/-- Claim C8 as stated: `MustLoad` implies the *input* section carried the
retention flag, and `Discard` implies no part id was ever assigned (no
built-in part id was handed out and no custom-section record survives). -/
def sectionSlotClaim : Prop :=
  ∀ (builtinRetain : Nat → Bool) (stripDebug sectionRetain : Bool)
    (classification : Option UnloadedSectionM) (sectionIndex : Nat),
    (∀ p, (resolveSectionSlot builtinRetain stripDebug sectionRetain
        classification sectionIndex).1 = .mustLoad p → sectionRetain = true) ∧
    ((resolveSectionSlot builtinRetain stripDebug sectionRetain
        classification sectionIndex).1 = .discard →
      (resolveSectionSlot builtinRetain stripDebug sectionRetain
        classification sectionIndex).2 = none ∧
      ∀ (u : UnloadedSectionM) (id : Nat),
        classification = some u → u.partId ≠ .builtIn id)

/-- C8, counterexample: a built-in part is classified `MustLoad` based on
the *built-in output section details'* retention flag, even when the input
section header carries no retention flag. -/
theorem C8_section_slot_counterexample : ¬ sectionSlotClaim := by
  intro h
  have h1 := (h (fun _ => true) false false (some ⟨.builtIn 3, false⟩) 0).1
      (.builtIn 3) (by decide)
  cases h1

/-- C8 (amended): `MustLoad` arises exactly from a built-in part whose
output section's built-in details carry the retention flag, or from a
non-debug custom section whose *input* header carries the retention flag;
`Discard` implies the classifier assigned no built-in part id to the
section and its custom-section record (if any) is dropped. -/
theorem C8_section_slot (builtinRetain : Nat → Bool)
    (stripDebug sectionRetain : Bool)
    (classification : Option UnloadedSectionM) (sectionIndex : Nat) :
    (∀ p, (resolveSectionSlot builtinRetain stripDebug sectionRetain
        classification sectionIndex).1 = .mustLoad p →
      (∃ id, classification = some ⟨.builtIn id, false⟩ ∧
        builtinRetain id = true ∧ p = .builtIn id) ∨
      (∃ name alignment, classification = some ⟨.custom name alignment, false⟩ ∧
        bytesHavePre debugBytes name = false ∧ sectionRetain = true ∧
        p = .placeholder)) ∧
    ((resolveSectionSlot builtinRetain stripDebug sectionRetain
        classification sectionIndex).1 = .discard →
      (resolveSectionSlot builtinRetain stripDebug sectionRetain
        classification sectionIndex).2 = none ∧
      ∀ (u : UnloadedSectionM) (id : Nat),
        classification = some u → u.partId ≠ .builtIn id) := by
  cases classification with
  | none =>
    refine ⟨?_, ?_⟩
    · intro p hp
      cases hp
    · intro _
      exact ⟨rfl, fun u id hc => by cases hc⟩
  | some u =>
    obtain ⟨pid, ism⟩ := u
    cases ism with
    | true =>
      refine ⟨?_, ?_⟩
      · intro p hp
        simp [resolveSectionSlot] at hp
      · intro hd
        simp [resolveSectionSlot] at hd
    | false =>
      cases pid with
      | builtIn id =>
        cases hbr : builtinRetain id with
        | true =>
          refine ⟨?_, ?_⟩
          · intro p hp
            simp [resolveSectionSlot, hbr] at hp
            exact Or.inl ⟨id, rfl, hbr, hp.symm⟩
          · intro hd
            simp [resolveSectionSlot, hbr] at hd
        | false =>
          refine ⟨?_, ?_⟩
          · intro p hp
            simp [resolveSectionSlot, hbr] at hp
          · intro hd
            simp [resolveSectionSlot, hbr] at hd
      | custom name alignment =>
        cases hdbg : bytesHavePre debugBytes name with
        | true =>
          cases stripDebug with
          | true =>
            refine ⟨?_, ?_⟩
            · intro p hp
              simp [resolveSectionSlot, hdbg] at hp
            · intro _
              refine ⟨by simp [resolveSectionSlot, hdbg], ?_⟩
              intro u id hc
              obtain rfl : u = ⟨.custom name alignment, false⟩ :=
                (Option.some.injEq .. ▸ hc).symm
              intro hcontra
              cases hcontra
          | false =>
            refine ⟨?_, ?_⟩
            · intro p hp
              simp [resolveSectionSlot, hdbg] at hp
            · intro hd
              simp [resolveSectionSlot, hdbg] at hd
        | false =>
          cases hsr : sectionRetain with
          | true =>
            refine ⟨?_, ?_⟩
            · intro p hp
              simp [resolveSectionSlot, hdbg] at hp
              exact Or.inr ⟨name, alignment, rfl, hdbg, rfl, hp.symm⟩
            · intro hd
              simp [resolveSectionSlot, hdbg] at hd
          | false =>
            refine ⟨?_, ?_⟩
            · intro p hp
              simp [resolveSectionSlot, hdbg] at hp
            · intro hd
              simp [resolveSectionSlot, hdbg] at hd
      | ehFrameData =>
        refine ⟨?_, ?_⟩
        · intro p hp
          simp [resolveSectionSlot] at hp
        · intro hd
          simp [resolveSectionSlot] at hd

/-- Closed instance discharging the hypotheses of the amended C8 theorem:
an unclassified section is discarded with no custom record. -/
theorem C8_section_slot_witness :
    (resolveSectionSlot (fun _ => false) true false none 0).2 = none ∧
    (resolveSectionSlot (fun _ => false) false true
      (some ⟨.custom [99] 4, false⟩) 0).1 = .mustLoad .placeholder := by
  refine ⟨?_, by decide⟩
  exact ((C8_section_slot (fun _ => false) true false none 0).2 (by decide)).1

/-! ## C3 — `canonicalise_undefined_symbols` (`resolution.rs` lines
701–773)

Collaborators entering as parameters: `resolvedKind` gives each file's
`ResolvedFile` variant (the loop only asks whether it `matches!`
`NotLoaded`), `customNameToId` is `output_sections.custom_name_to_id`.
`SymbolDb::add_start_stop_symbol` is not under `src/`; modelled from the
spec: it returns a fresh, previously unused symbol id, so it is modelled as
a counter starting at `baseId`. `replace_definition` calls are collected as
`(from, to)` pairs in call order. -/

/-- `InternalSymDefInfo` as produced by `allocate_start_stop_symbol_id`. -/
inductive InternalSymDefInfo : Type where
  | sectionStart (sectionId : Nat) : InternalSymDefInfo
  | sectionEnd (sectionId : Nat) : InternalSymDefInfo
  deriving DecidableEq, Repr

/-- The bytes of `"__start_"`. -/
def startBytes : List Nat := [95, 95, 115, 116, 97, 114, 116, 95]

/-- The bytes of `"__stop_"`. -/
def stopBytes : List Nat := [95, 95, 115, 116, 111, 112, 95]

/-- The collaborator state read by `canonicalise_undefined_symbols`. -/
structure CanonEnv : Type where
  resolvedKind : Nat → ResolvedFileKind
  customNameToId : List Nat → Option Nat

/-- `matches!(…, ResolvedFile::NotLoaded(_))`. -/
def isNotLoaded : ResolvedFileKind → Bool
  | .notLoaded => true
  | _ => false

/-- The `is_defined` test: the record is skipped iff its `ignore_if_loaded`
file is present and now resolved to any non-`NotLoaded` variant. -/
def droppedRecord (env : CanonEnv) (r : UndefinedSymbolRec) : Bool :=
  match r.ignoreIfLoaded with
  | some fileId => !(isNotLoaded (env.resolvedKind fileId))
  | none => false

/-- The decision part of `allocate_start_stop_symbol_id`: `some` with the
`InternalSymDefInfo` to record when the name strips a `__start_`/`__stop_`
byte prefix *and* the remainder names a known custom output section;
`none` otherwise (the caller then falls back to the referring id). -/
def startStopInfo (env : CanonEnv) (name : List Nat) : Option InternalSymDefInfo :=
  if bytesHavePre startBytes name then
    (env.customNameToId (name.drop 8)).map InternalSymDefInfo.sectionStart
  else if bytesHavePre stopBytes name then
    (env.customNameToId (name.drop 7)).map InternalSymDefInfo.sectionEnd
  else none

/-- The mutable state of the canonicalisation loop: the `name_to_id` map
(an association list, newest entry first), the symbol database's next fresh
id, the `custom_start_stop_defs` list, and the `replace_definition` calls
made so far. -/
structure CanonState : Type where
  nameToId : List (List Nat × Nat)
  nextId : Nat
  defs : List InternalSymDefInfo
  repls : List (Nat × Nat)
  deriving DecidableEq, Repr

/-- One iteration of the `for undefined in undefined_symbols` loop. -/
def canonStep (env : CanonEnv) (st : CanonState) (r : UndefinedSymbolRec) :
    CanonState :=
  if droppedRecord env r then st
  else
    match alookup st.nameToId r.name with
    | some canonical => { st with repls := st.repls ++ [(r.symbolId, canonical)] }
    | none =>
      match startStopInfo env r.name with
      | some defInfo =>
        { nameToId := (r.name, st.nextId) :: st.nameToId
          nextId := st.nextId + 1
          defs := st.defs ++ [defInfo]
          repls := st.repls ++ [(r.symbolId, st.nextId)] }
      | none =>
        { nameToId := (r.name, r.symbolId) :: st.nameToId
          nextId := st.nextId
          defs := st.defs
          repls := st.repls ++ [(r.symbolId, r.symbolId)] }

/-- The whole loop. -/
def canonProcess (env : CanonEnv) :
    List UndefinedSymbolRec → CanonState → CanonState
  | [], st => st
  | r :: rest, st => canonProcess env rest (canonStep env st r)

/-- Stable insertion (by ascending `symbol_id`); models the stable
`sort_by_key`. -/
def insertSorted (r : UndefinedSymbolRec) :
    List UndefinedSymbolRec → List UndefinedSymbolRec
  | [] => [r]
  | x :: rest =>
    if r.symbolId < x.symbolId then r :: x :: rest else x :: insertSorted r rest

/-- `undefined_symbols.sort_by_key(|u| u.symbol_id)`. -/
def sortRecords (records : List UndefinedSymbolRec) : List UndefinedSymbolRec :=
  records.foldr insertSorted []

/-- `canonicalise_undefined_symbols`: sort the drained records by symbol id
and run the loop from an empty name map, with `baseId` the database's next
fresh symbol id. -/
def canonicaliseUndefinedSymbols (env : CanonEnv) (baseId : Nat)
    (records : List UndefinedSymbolRec) : CanonState :=
  canonProcess env (sortRecords records) ⟨[], baseId, [], []⟩

/-- Spec-side: the first occurrence of each name (names in `known` are
considered already seen). -/
def firstsNotIn (known : List (List Nat)) :
    List UndefinedSymbolRec → List UndefinedSymbolRec
  | [] => []
  | r :: rest =>
    if r.name ∈ known then firstsNotIn known rest
    else r :: firstsNotIn (r.name :: known) rest

/-- Spec-side: the canonical id assigned to each first occurrence, in
order: a `__start_`/`__stop_` name of a known custom section consumes the
next fresh id; any other name is assigned the referring record's own
`symbol_id`. -/
def canonAssignments (env : CanonEnv) (baseId : Nat) :
    List UndefinedSymbolRec → List (List Nat × Nat)
  | [] => []
  | r :: rest =>
    match startStopInfo env r.name with
    | some _ => (r.name, baseId) :: canonAssignments env (baseId + 1) rest
    | none => (r.name, r.symbolId) :: canonAssignments env baseId rest

/-- Number of start/stop symbols allocated for a list of first
occurrences. -/
def countStartStop (env : CanonEnv) (l : List UndefinedSymbolRec) : Nat :=
  (l.filter (fun r => (startStopInfo env r.name).isSome)).length

/-- Spec-side final state for processing the remaining records `rem` from
state `st`. -/
def canonSpecState (env : CanonEnv) (st : CanonState)
    (rem : List UndefinedSymbolRec) : CanonState :=
  { nameToId :=
      (canonAssignments env st.nextId
        (firstsNotIn (st.nameToId.map Prod.fst) rem)).reverse ++ st.nameToId
    nextId := st.nextId
      + countStartStop env (firstsNotIn (st.nameToId.map Prod.fst) rem)
    defs := st.defs
      ++ (firstsNotIn (st.nameToId.map Prod.fst) rem).filterMap
          (fun r => startStopInfo env r.name)
    repls := st.repls ++ rem.map (fun r =>
      (r.symbolId,
        (alookup
          ((canonAssignments env st.nextId
            (firstsNotIn (st.nameToId.map Prod.fst) rem)).reverse
            ++ st.nameToId) r.name).getD 0)) }

theorem alookup_eq_none {α β : Type} [DecidableEq α] :
    ∀ (A : List (α × β)) (k : α),
      alookup A k = none ↔ k ∉ A.map Prod.fst := by
  intro A
  induction A with
  | nil => intro k; simp
  | cons kv rest ih =>
    intro k
    obtain ⟨k0, v⟩ := kv
    by_cases h : k = k0
    · simp [alookup_cons, h]
    · simp [alookup_cons, h, ih]

theorem alookup_append_not_mem {α β : Type} [DecidableEq α] :
    ∀ (A B : List (α × β)) (k : α), k ∉ A.map Prod.fst →
      alookup (A ++ B) k = alookup B k := by
  intro A
  induction A with
  | nil => intro B k _; rfl
  | cons kv rest ih =>
    intro B k hk
    obtain ⟨k0, v⟩ := kv
    have hne : k ≠ k0 := by
      intro hc
      exact hk (by simp [hc])
    have hk' : k ∉ rest.map Prod.fst := by
      intro hc
      exact hk (by simp [hc])
    simp only [List.cons_append, alookup_cons, if_neg hne]
    exact ih B k hk'

theorem firstsNotIn_names :
    ∀ (rem : List UndefinedSymbolRec) (known : List (List Nat))
      (r : UndefinedSymbolRec), r ∈ firstsNotIn known rem → r.name ∉ known := by
  intro rem
  induction rem with
  | nil => intro known r h; cases h
  | cons x rest ih =>
    intro known r h
    by_cases hx : x.name ∈ known
    · rw [firstsNotIn, if_pos hx] at h
      exact ih known r h
    · rw [firstsNotIn, if_neg hx] at h
      rcases List.mem_cons.mp h with rfl | h'
      · exact hx
      · intro hc
        exact ih (x.name :: known) r h' (List.mem_cons_of_mem _ hc)

theorem canonAssignments_keys (env : CanonEnv) :
    ∀ (fs : List UndefinedSymbolRec) (b : Nat),
      (canonAssignments env b fs).map Prod.fst = fs.map (fun r => r.name) := by
  intro fs
  induction fs with
  | nil => intro b; rfl
  | cons r rest ih =>
    intro b
    cases hss : startStopInfo env r.name with
    | some d => simp [canonAssignments, hss, ih]
    | none => simp [canonAssignments, hss, ih]

theorem canonSpecState_cons (env : CanonEnv) (st : CanonState)
    (r : UndefinedSymbolRec) (rem' : List UndefinedSymbolRec)
    (hd' : droppedRecord env r = false) :
    canonSpecState env (canonStep env st r) rem'
      = canonSpecState env st (r :: rem') := by
  cases hlook : alookup st.nameToId r.name with
  | some canonical =>
    have hmem : r.name ∈ st.nameToId.map Prod.fst := by
      by_contra hc
      rw [(alookup_eq_none _ _).mpr hc] at hlook
      cases hlook
    have hstep : canonStep env st r
        = { st with repls := st.repls ++ [(r.symbolId, canonical)] } := by
      rw [canonStep, if_neg (by simp [hd']), hlook]
    have hfirsts : firstsNotIn (st.nameToId.map Prod.fst) (r :: rem')
        = firstsNotIn (st.nameToId.map Prod.fst) rem' := by
      rw [firstsNotIn, if_pos hmem]
    have hnotin : r.name ∉ ((canonAssignments env st.nextId
        (firstsNotIn (st.nameToId.map Prod.fst) rem')).reverse).map Prod.fst := by
      rw [List.map_reverse, List.mem_reverse, canonAssignments_keys]
      intro hc
      obtain ⟨x, hx, hxname⟩ := List.mem_map.mp hc
      exact firstsNotIn_names rem' _ x hx (hxname ▸ hmem)
    have hfinal : alookup ((canonAssignments env st.nextId
        (firstsNotIn (st.nameToId.map Prod.fst) rem')).reverse
          ++ st.nameToId) r.name = some canonical := by
      rw [alookup_append_not_mem _ _ _ hnotin, hlook]
    rw [hstep]
    unfold canonSpecState
    simp only [hfirsts, CanonState.mk.injEq]
    refine ⟨trivial, trivial, trivial, ?_⟩
    rw [List.map_cons, hfinal]
    simp
  | none =>
    have hnotmem : r.name ∉ st.nameToId.map Prod.fst :=
      (alookup_eq_none _ _).mp hlook
    have hfirsts : firstsNotIn (st.nameToId.map Prod.fst) (r :: rem')
        = r :: firstsNotIn (r.name :: st.nameToId.map Prod.fst) rem' := by
      rw [firstsNotIn, if_neg hnotmem]
    cases hss : startStopInfo env r.name with
    | some defInfo =>
      have hstep : canonStep env st r
          = ⟨(r.name, st.nextId) :: st.nameToId, st.nextId + 1,
              st.defs ++ [defInfo], st.repls ++ [(r.symbolId, st.nextId)]⟩ := by
        rw [canonStep, if_neg (by simp [hd']), hlook, hss]
      have hassign : canonAssignments env st.nextId
          (r :: firstsNotIn (r.name :: st.nameToId.map Prod.fst) rem')
          = (r.name, st.nextId) :: canonAssignments env (st.nextId + 1)
              (firstsNotIn (r.name :: st.nameToId.map Prod.fst) rem') := by
        rw [canonAssignments, hss]
      have hnotr : r.name ∉ ((canonAssignments env (st.nextId + 1)
          (firstsNotIn (r.name :: st.nameToId.map Prod.fst) rem')).reverse).map
            Prod.fst := by
        rw [List.map_reverse, List.mem_reverse, canonAssignments_keys]
        intro hc
        obtain ⟨x, hx, hxname⟩ := List.mem_map.mp hc
        exact firstsNotIn_names rem' _ x hx
          (hxname ▸ List.mem_cons_self _ _)
      have hmap : ((r.name, st.nextId) :: canonAssignments env (st.nextId + 1)
          (firstsNotIn (r.name :: st.nameToId.map Prod.fst) rem')).reverse
            ++ st.nameToId
          = (canonAssignments env (st.nextId + 1)
              (firstsNotIn (r.name :: st.nameToId.map Prod.fst) rem')).reverse
            ++ ((r.name, st.nextId) :: st.nameToId) := by
        rw [List.reverse_cons, List.append_assoc]
        rfl
      have hfinal : alookup ((canonAssignments env (st.nextId + 1)
          (firstsNotIn (r.name :: st.nameToId.map Prod.fst) rem')).reverse
            ++ ((r.name, st.nextId) :: st.nameToId)) r.name
          = some st.nextId := by
        rw [alookup_append_not_mem _ _ _ hnotr]
        simp [alookup_cons]
      have hcount : countStartStop env
          (r :: firstsNotIn (r.name :: st.nameToId.map Prod.fst) rem')
          = countStartStop env
              (firstsNotIn (r.name :: st.nameToId.map Prod.fst) rem') + 1 := by
        unfold countStartStop
        rw [List.filter_cons]
        simp [hss]
      rw [hstep]
      unfold canonSpecState
      simp only [hfirsts, hassign, hmap, hcount, List.map_cons,
        CanonState.mk.injEq]
      refine ⟨trivial, by omega, ?_, ?_⟩
      · rw [List.filterMap_cons]
        simp [hss]
      · rw [hfinal]
        simp
    | none =>
      have hstep : canonStep env st r
          = ⟨(r.name, r.symbolId) :: st.nameToId, st.nextId,
              st.defs, st.repls ++ [(r.symbolId, r.symbolId)]⟩ := by
        rw [canonStep, if_neg (by simp [hd']), hlook, hss]
      have hassign : canonAssignments env st.nextId
          (r :: firstsNotIn (r.name :: st.nameToId.map Prod.fst) rem')
          = (r.name, r.symbolId) :: canonAssignments env st.nextId
              (firstsNotIn (r.name :: st.nameToId.map Prod.fst) rem') := by
        rw [canonAssignments, hss]
      have hnotr : r.name ∉ ((canonAssignments env st.nextId
          (firstsNotIn (r.name :: st.nameToId.map Prod.fst) rem')).reverse).map
            Prod.fst := by
        rw [List.map_reverse, List.mem_reverse, canonAssignments_keys]
        intro hc
        obtain ⟨x, hx, hxname⟩ := List.mem_map.mp hc
        exact firstsNotIn_names rem' _ x hx
          (hxname ▸ List.mem_cons_self _ _)
      have hmap : ((r.name, r.symbolId) :: canonAssignments env st.nextId
          (firstsNotIn (r.name :: st.nameToId.map Prod.fst) rem')).reverse
            ++ st.nameToId
          = (canonAssignments env st.nextId
              (firstsNotIn (r.name :: st.nameToId.map Prod.fst) rem')).reverse
            ++ ((r.name, r.symbolId) :: st.nameToId) := by
        rw [List.reverse_cons, List.append_assoc]
        rfl
      have hfinal : alookup ((canonAssignments env st.nextId
          (firstsNotIn (r.name :: st.nameToId.map Prod.fst) rem')).reverse
            ++ ((r.name, r.symbolId) :: st.nameToId)) r.name
          = some r.symbolId := by
        rw [alookup_append_not_mem _ _ _ hnotr]
        simp [alookup_cons]
      have hcount : countStartStop env
          (r :: firstsNotIn (r.name :: st.nameToId.map Prod.fst) rem')
          = countStartStop env
              (firstsNotIn (r.name :: st.nameToId.map Prod.fst) rem') := by
        unfold countStartStop
        rw [List.filter_cons]
        simp [hss]
      rw [hstep]
      unfold canonSpecState
      simp only [hfirsts, hassign, hmap, hcount, List.map_cons,
        CanonState.mk.injEq]
      refine ⟨trivial, trivial, ?_, ?_⟩
      · rw [List.filterMap_cons]
        simp [hss]
      · rw [hfinal]
        simp

/-- The canonicalisation loop computes the spec-side state: replacements
for exactly the remaining records (in order), canonical ids assigned at
first occurrences, start/stop definitions recorded for start/stop firsts. -/
theorem canonProcess_eq_spec (env : CanonEnv) :
    ∀ (rs : List UndefinedSymbolRec) (st : CanonState),
    canonProcess env rs st
      = canonSpecState env st (rs.filter (fun r => !droppedRecord env r)) := by
  intro rs
  induction rs with
  | nil =>
    intro st
    simp [canonProcess, canonSpecState, firstsNotIn, canonAssignments,
      countStartStop]
  | cons r rest ih =>
    intro st
    by_cases hd : droppedRecord env r = true
    · have hskip : canonProcess env (r :: rest) st
          = canonProcess env rest st := by
        show canonProcess env rest (canonStep env st r) = _
        rw [canonStep, if_pos hd]
      rw [hskip, ih]
      congr 1
      simp [List.filter_cons, hd]
    · have hd' : droppedRecord env r = false := by simpa using hd
      have hfc : (r :: rest).filter (fun x => !droppedRecord env x)
          = r :: rest.filter (fun x => !droppedRecord env x) := by
        simp [List.filter_cons, hd']
      rw [hfc]
      show canonProcess env rest (canonStep env st r) = _
      rw [ih, canonSpecState_cons env st r _ hd']

/-- C3: processing the drained records in ascending `symbol_id` order,
a record is dropped iff its `ignore_if_loaded` file is resolved to a
non-`NotLoaded` variant; every remaining record gets exactly one
`replace_definition(record.symbol_id, canonical)` call, in order, where the
canonical id of a name is fixed at the name's first remaining occurrence:
a fresh id from `add_start_stop_symbol` (with a `SectionStart`/`SectionEnd`
def recorded, in first-occurrence order) when the name is a
`__start_`/`__stop_` name of a known custom section, and the referring
record's own `symbol_id` otherwise; repeats reuse the first's id. -/
theorem C3_canonicalise_undefined_symbols (env : CanonEnv) (baseId : Nat)
    (records : List UndefinedSymbolRec) :
    (∀ r ∈ sortRecords records,
      (droppedRecord env r = true ↔
        ∃ fileId, r.ignoreIfLoaded = some fileId ∧
          isNotLoaded (env.resolvedKind fileId) = false)) ∧
    (canonicaliseUndefinedSymbols env baseId records).repls
      = ((sortRecords records).filter (fun r => !droppedRecord env r)).map
          (fun r => (r.symbolId,
            (alookup (canonAssignments env baseId
              (firstsNotIn [] ((sortRecords records).filter
                (fun x => !droppedRecord env x)))).reverse r.name).getD 0)) ∧
    (canonicaliseUndefinedSymbols env baseId records).defs
      = (firstsNotIn [] ((sortRecords records).filter
          (fun x => !droppedRecord env x))).filterMap
            (fun r => startStopInfo env r.name) ∧
    (canonicaliseUndefinedSymbols env baseId records).nameToId
      = (canonAssignments env baseId
          (firstsNotIn [] ((sortRecords records).filter
            (fun x => !droppedRecord env x)))).reverse ∧
    (canonicaliseUndefinedSymbols env baseId records).nextId
      = baseId + countStartStop env
          (firstsNotIn [] ((sortRecords records).filter
            (fun x => !droppedRecord env x))) := by
  have h := canonProcess_eq_spec env (sortRecords records) ⟨[], baseId, [], []⟩
  refine ⟨?_, ?_, ?_, ?_, ?_⟩
  · intro r _
    cases hio : r.ignoreIfLoaded with
    | none => simp [droppedRecord, hio]
    | some fileId => simp [droppedRecord, hio]
  · rw [canonicaliseUndefinedSymbols, h]
    simp [canonSpecState]
  · rw [canonicaliseUndefinedSymbols, h]
    simp [canonSpecState]
  · rw [canonicaliseUndefinedSymbols, h]
    simp [canonSpecState]
  · rw [canonicaliseUndefinedSymbols, h]
    simp [canonSpecState]

/-- Closed instance discharging the hypotheses of the C3 theorem:
records (sorted ids 5, 7, 9) where id 9 is a weak record whose file got
loaded (dropped), id 5 an ordinary name (canonicalised to itself) and id 7
a `__start_f` reference with `f` a known custom section (fresh id 100,
`SectionStart 77` recorded). -/
theorem C3_canonicalise_undefined_symbols_witness :
    (canonicaliseUndefinedSymbols
        ⟨fun f => if f = 0 then .notLoaded else .epilogue,
          fun n => if n = [102] then some 77 else none⟩ 100
        [⟨none, [97], 5⟩, ⟨some 1, [97], 9⟩,
          ⟨none, [95, 95, 115, 116, 97, 114, 116, 95, 102], 7⟩]).repls
      = [(5, 5), (7, 100)] ∧
    (canonicaliseUndefinedSymbols
        ⟨fun f => if f = 0 then .notLoaded else .epilogue,
          fun n => if n = [102] then some 77 else none⟩ 100
        [⟨none, [97], 5⟩, ⟨some 1, [97], 9⟩,
          ⟨none, [95, 95, 115, 116, 97, 114, 116, 95, 102], 7⟩]).defs
      = [.sectionStart 77] ∧
    droppedRecord
        ⟨fun f => if f = 0 then .notLoaded else .epilogue,
          fun n => if n = [102] then some 77 else none⟩
        ⟨some 1, [97], 9⟩ = true := by
  refine ⟨?_, ?_, ?_⟩
  · exact ((C3_canonicalise_undefined_symbols
      ⟨fun f => if f = 0 then .notLoaded else .epilogue,
        fun n => if n = [102] then some 77 else none⟩ 100
      [⟨none, [97], 5⟩, ⟨some 1, [97], 9⟩,
        ⟨none, [95, 95, 115, 116, 97, 114, 116, 95, 102], 7⟩]).2.1).trans
      (by decide)
  · exact ((C3_canonicalise_undefined_symbols
      ⟨fun f => if f = 0 then .notLoaded else .epilogue,
        fun n => if n = [102] then some 77 else none⟩ 100
      [⟨none, [97], 5⟩, ⟨some 1, [97], 9⟩,
        ⟨none, [95, 95, 115, 116, 97, 114, 116, 95, 102], 7⟩]).2.2.1).trans
      (by decide)
  · exact ((C3_canonicalise_undefined_symbols
      ⟨fun f => if f = 0 then .notLoaded else .epilogue,
        fun n => if n = [102] then some 77 else none⟩ 100
      [⟨none, [97], 5⟩, ⟨some 1, [97], 9⟩,
        ⟨none, [95, 95, 115, 116, 97, 114, 116, 95, 102], 7⟩]).1
      ⟨some 1, [97], 9⟩ (by decide)).mpr ⟨1, rfl, by decide⟩

/-! ## C5/C6/C7 — `OutputSectionPartMap`
(`src/output_section_part_map.rs`)

Output-section ids are `Nat`. The ids of the seven generated (fixed-part)
sections are pinned by the `debug_assert_eq!(output_section_id.as_usize(),
values_out.len())` in `merge_parts`: `HEADERS = 0`, `SHSTRTAB = 1`,
`SYMTAB = 2`, `STRTAB = 3`, `GOT = 4`, `PLT = 5`, `RELA_PLT = 6`, and
`NUM_GENERATED_SECTIONS = 7`. The numbering of the regular built-in
sections lives in `output_section_id.rs`, which is not under `src/`;
modelled from the spec's enumeration as consecutive ids from 7 (only their
distinctness and the `id - NUM_GENERATED_SECTIONS` indexing convention
matter here). An `AlignmentMap T` (`alignment.rs`, not under `src/`;
spec §4.1: a dense fixed-size map from alignment exponents to `T`,
iterable ascending) is modelled as a `List T` indexed by alignment
exponent; `Vec` indexing is modelled with `getD` (the source would panic
out of bounds). -/

def HEADERS : Nat := 0
def SHSTRTAB : Nat := 1
def SYMTAB : Nat := 2
def STRTAB : Nat := 3
def GOT : Nat := 4
def PLT : Nat := 5
def RELA_PLT : Nat := 6
def NUM_GENERATED_SECTIONS : Nat := 7
def RODATA : Nat := 7
def INIT_ARRAY : Nat := 8
def FINI_ARRAY : Nat := 9
def PREINIT_ARRAY : Nat := 10
def TEXT : Nat := 11
def INIT : Nat := 12
def FINI : Nat := 13
def DATA : Nat := 14
def TDATA : Nat := 15
def TBSS : Nat := 16
def BSS : Nat := 17

/-- The fields of `OutputSections` that `output_order_map` reads: the four
custom-section id lists and each section's `min_alignment()` (alignments
are represented by their exponent). -/
structure OutputSectionsModel : Type where
  roCustom : List Nat
  execCustom : List Nat
  dataCustom : List Nat
  bssCustom : List Nat
  minAlignment : Nat → Nat

/-- `OutputSectionPartMap<T>` (`output_section_part_map.rs` lines 14–25). -/
structure OutputSectionPartMap (T : Type) : Type where
  regular : List (List T)
  fileHeaders : T
  got : T
  plt : T
  symtabLocals : T
  symtabGlobals : T
  symtabStrings : T
  shstrtab : T
  relaPlt : T
  deriving DecidableEq, Repr

/-- `AlignmentMap::iter()`: `(alignment, value)` pairs in ascending
alignment order, starting at exponent `i`. -/
def enumAsc {T : Type} : Nat → List T → List (Nat × T)
  | _, [] => []
  | i, x :: rest => (i, x) :: enumAsc (i + 1) rest

/-- `map_alignment_map` (`output_section_part_map.rs` lines 215–242) as the
sequence of `cb` invocations `(section, effective_alignment, value)`, in
order: iterate the buckets descending (`iter().rev()`), computing
`max_alignment` as the first non-default bucket's alignment, and pass
`max_alignment.min(alignment.max(min_alignment))` to `cb`.
Modelled from the spec: the `unwrap_or_default()` fallback for a fully
default map (`Alignment`'s `Default`, in `alignment.rs`, is not under
`src/`) is the section's `min_alignment`, as §4.2 of the spec states. -/
def alignmentMapCalls {T : Type} [DecidableEq T] (dflt : T)
    (outputSectionId minAlign : Nat) (m : List T) : List (Nat × Nat × T) :=
  let maxAlignment :=
    ((((enumAsc 0 m).reverse).find? (fun p => decide (p.2 ≠ dflt))).map
      Prod.fst).getD minAlign
  ((enumAsc 0 m).reverse).map (fun p =>
    (outputSectionId, Nat.min maxAlignment (Nat.max p.1 minAlign), p.2))

/-- `map_regular`: pick the section's alignment map at index
`id - NUM_GENERATED_SECTIONS` and run `map_alignment_map`. -/
def regularCalls {T : Type} [DecidableEq T] (dflt : T)
    (os : OutputSectionsModel) (pm : OutputSectionPartMap T) (id : Nat) :
    List (Nat × Nat × T) :=
  alignmentMapCalls dflt id (os.minAlignment id)
    (pm.regular.getD (id - NUM_GENERATED_SECTIONS) [])

/-- `output_order_map` (`output_section_part_map.rs` lines 67–149) as the
sequence of `cb` invocations, in the order of the source's statements. -/
def outputOrderCalls {T : Type} [DecidableEq T] (dflt : T)
    (os : OutputSectionsModel) (pm : OutputSectionPartMap T) :
    List (Nat × Nat × T) :=
  [(HEADERS, os.minAlignment HEADERS, pm.fileHeaders)]
  ++ regularCalls dflt os pm RODATA
  ++ regularCalls dflt os pm INIT_ARRAY
  ++ regularCalls dflt os pm FINI_ARRAY
  ++ regularCalls dflt os pm PREINIT_ARRAY
  ++ [(SHSTRTAB, os.minAlignment SHSTRTAB, pm.shstrtab),
      (SYMTAB, os.minAlignment SYMTAB, pm.symtabLocals),
      (SYMTAB, os.minAlignment SYMTAB, pm.symtabGlobals),
      (STRTAB, os.minAlignment STRTAB, pm.symtabStrings),
      (RELA_PLT, os.minAlignment RELA_PLT, pm.relaPlt)]
  ++ (os.roCustom.map (regularCalls dflt os pm)).flatten
  ++ [(PLT, os.minAlignment PLT, pm.plt)]
  ++ regularCalls dflt os pm TEXT
  ++ regularCalls dflt os pm INIT
  ++ regularCalls dflt os pm FINI
  ++ (os.execCustom.map (regularCalls dflt os pm)).flatten
  ++ [(GOT, os.minAlignment GOT, pm.got)]
  ++ regularCalls dflt os pm DATA
  ++ (os.dataCustom.map (regularCalls dflt os pm)).flatten
  ++ regularCalls dflt os pm TDATA
  ++ regularCalls dflt os pm TBSS
  ++ regularCalls dflt os pm BSS
  ++ (os.bssCustom.map (regularCalls dflt os pm)).flatten

/-- Spec-side: the alignment of the highest non-default bucket. -/
def lastIdxNotDefault {T : Type} [DecidableEq T] (dflt : T) : List T → Option Nat
  | [] => none
  | x :: rest =>
    match lastIdxNotDefault dflt rest with
    | some j => some (j + 1)
    | none => if x ≠ dflt then some 0 else none

theorem enumAsc_rev_map {T U : Type} (dflt : T) :
    ∀ (m : List T) (i : Nat) (f : Nat × T → U),
    ((enumAsc i m).reverse).map f
      = ((List.range m.length).reverse).map (fun a => f (i + a, m.getD a dflt)) := by
  intro m
  induction m with
  | nil => intro i f; rfl
  | cons x rest ih =>
    intro i f
    have hL : ((enumAsc i (x :: rest)).reverse).map f
        = ((enumAsc (i + 1) rest).reverse).map f ++ [f (i, x)] := by
      rw [show enumAsc i (x :: rest) = (i, x) :: enumAsc (i + 1) rest from rfl,
        List.reverse_cons, List.map_append]
      rfl
    rw [hL, ih (i + 1) f]
    have hR : (List.range (x :: rest).length).reverse
        = ((List.range rest.length).reverse).map Nat.succ ++ [0] := by
      rw [show (x :: rest).length = rest.length + 1 from rfl,
        List.range_succ_eq_map, List.reverse_cons, List.map_reverse]
    rw [hR, List.map_append, List.map_map]
    congr 1
    apply List.map_congr_left
    intro a _
    show f (i + 1 + a, rest.getD a dflt)
        = f (i + Nat.succ a, (x :: rest).getD (Nat.succ a) dflt)
    have h1 : i + Nat.succ a = i + 1 + a := by omega
    have h2 : (x :: rest).getD (Nat.succ a) dflt = rest.getD a dflt := rfl
    rw [h1, h2]

theorem enumAsc_find?_append {T : Type} (p : Nat × T → Bool) :
    ∀ (A B : List (Nat × T)),
    (A ++ B).find? p = match A.find? p with
      | some a => some a
      | none => B.find? p := by
  intro A
  induction A with
  | nil => intro B; rfl
  | cons a rest ih =>
    intro B
    rw [List.cons_append]
    cases hp : p a with
    | true => rw [List.find?_cons_of_pos _ hp, List.find?_cons_of_pos _ hp]
    | false =>
      rw [List.find?_cons_of_neg _ (by simp [hp]),
        List.find?_cons_of_neg _ (by simp [hp]), ih]

theorem enumAsc_rev_find {T : Type} [DecidableEq T] (dflt : T) :
    ∀ (m : List T) (i : Nat),
    ((enumAsc i m).reverse).find? (fun p => decide (p.2 ≠ dflt))
      = (lastIdxNotDefault dflt m).map (fun j => (i + j, m.getD j dflt)) := by
  intro m
  induction m with
  | nil => intro i; rfl
  | cons x rest ih =>
    intro i
    rw [show enumAsc i (x :: rest) = (i, x) :: enumAsc (i + 1) rest from rfl]
    rw [List.reverse_cons, enumAsc_find?_append, ih (i + 1)]
    cases hlast : lastIdxNotDefault dflt rest with
    | some j =>
      simp only [Option.map_some']
      rw [show lastIdxNotDefault dflt (x :: rest)
          = match lastIdxNotDefault dflt rest with
            | some j => some (j + 1)
            | none => if x ≠ dflt then some 0 else none from rfl, hlast]
      simp only [Option.map_some']
      rw [List.getD_cons_succ]
      congr 2
      omega
    | none =>
      simp only [Option.map_none']
      rw [show lastIdxNotDefault dflt (x :: rest)
          = match lastIdxNotDefault dflt rest with
            | some j => some (j + 1)
            | none => if x ≠ dflt then some 0 else none from rfl, hlast]
      by_cases hx : x = dflt
      · rw [if_neg (by simp [hx])]
        rw [List.find?_cons_of_neg _ (by simp [hx])]
        rfl
      · rw [if_pos (by simp [hx])]
        rw [List.find?_cons_of_pos _ (by simp [hx])]
        simp

/-- C6: within a regular section the alignment buckets are visited in
descending alignment, and the effective alignment passed to `cb` is
`clamp(bucket, min_alignment, max_populated)` =
`min max_populated (max bucket min_alignment)`, where `max_populated` is
the alignment of the highest non-default bucket, or `min_alignment` when no
bucket is populated. -/
theorem C6_alignment_clamping (T : Type) [DecidableEq T] (dflt : T)
    (outputSectionId minAlign : Nat) (m : List T) :
    alignmentMapCalls dflt outputSectionId minAlign m
      = ((List.range m.length).reverse).map (fun a =>
          (outputSectionId,
            Nat.min ((lastIdxNotDefault dflt m).getD minAlign)
              (Nat.max a minAlign),
            m.getD a dflt)) := by
  unfold alignmentMapCalls
  rw [enumAsc_rev_find dflt m 0, enumAsc_rev_map dflt m 0]
  cases hlast : lastIdxNotDefault dflt m with
  | some j =>
    simp only [Option.map_some', Option.getD_some]
    apply List.map_congr_left
    intro a _
    simp only [Nat.zero_add]
  | none =>
    simp only [Option.map_none', Option.getD_none]
    apply List.map_congr_left
    intro a _
    simp only [Nat.zero_add]

theorem enumAsc_length {T : Type} : ∀ (m : List T) (i : Nat),
    (enumAsc i m).length = m.length := by
  intro m
  induction m with
  | nil => intro i; rfl
  | cons x rest ih =>
    intro i
    rw [show enumAsc i (x :: rest) = (i, x) :: enumAsc (i + 1) rest from rfl]
    simp [ih]

theorem map_const_replicate {α β : Type} (b : β) :
    ∀ (l : List α), l.map (fun _ => b) = List.replicate l.length b := by
  intro l
  induction l with
  | nil => rfl
  | cons x rest ih => simp [ih, List.replicate_succ]

/-- The section ids announced by one regular section: its id repeated once
per alignment bucket. -/
def regularIdCalls {T : Type} (pm : OutputSectionPartMap T) (id : Nat) :
    List Nat :=
  List.replicate ((pm.regular.getD (id - NUM_GENERATED_SECTIONS) []).length) id

/-- The canonical output order of the claim, one entry per callback:
each fixed part once, each regular section once per alignment bucket, the
custom sections in their `OutputSections` list order. -/
def canonicalOrder {T : Type} (pm : OutputSectionPartMap T)
    (os : OutputSectionsModel) : List Nat :=
  [HEADERS]
  ++ regularIdCalls pm RODATA
  ++ regularIdCalls pm INIT_ARRAY
  ++ regularIdCalls pm FINI_ARRAY
  ++ regularIdCalls pm PREINIT_ARRAY
  ++ [SHSTRTAB, SYMTAB, SYMTAB, STRTAB, RELA_PLT]
  ++ (os.roCustom.map (regularIdCalls pm)).flatten
  ++ [PLT]
  ++ regularIdCalls pm TEXT
  ++ regularIdCalls pm INIT
  ++ regularIdCalls pm FINI
  ++ (os.execCustom.map (regularIdCalls pm)).flatten
  ++ [GOT]
  ++ regularIdCalls pm DATA
  ++ (os.dataCustom.map (regularIdCalls pm)).flatten
  ++ regularIdCalls pm TDATA
  ++ regularIdCalls pm TBSS
  ++ regularIdCalls pm BSS
  ++ (os.bssCustom.map (regularIdCalls pm)).flatten

/-- As `canonicalOrder`, but counting only the *populated* (non-default)
alignment buckets of each regular section — the claim's reading. -/
def populatedIdCalls {T : Type} [DecidableEq T] (dflt : T)
    (pm : OutputSectionPartMap T) (id : Nat) : List Nat :=
  List.replicate
    (((pm.regular.getD (id - NUM_GENERATED_SECTIONS) []).filter
      (fun v => decide (v ≠ dflt))).length) id

def canonicalOrderPopulated {T : Type} [DecidableEq T] (dflt : T)
    (pm : OutputSectionPartMap T) (os : OutputSectionsModel) : List Nat :=
  [HEADERS]
  ++ populatedIdCalls dflt pm RODATA
  ++ populatedIdCalls dflt pm INIT_ARRAY
  ++ populatedIdCalls dflt pm FINI_ARRAY
  ++ populatedIdCalls dflt pm PREINIT_ARRAY
  ++ [SHSTRTAB, SYMTAB, SYMTAB, STRTAB, RELA_PLT]
  ++ (os.roCustom.map (populatedIdCalls dflt pm)).flatten
  ++ [PLT]
  ++ populatedIdCalls dflt pm TEXT
  ++ populatedIdCalls dflt pm INIT
  ++ populatedIdCalls dflt pm FINI
  ++ (os.execCustom.map (populatedIdCalls dflt pm)).flatten
  ++ [GOT]
  ++ populatedIdCalls dflt pm DATA
  ++ (os.dataCustom.map (populatedIdCalls dflt pm)).flatten
  ++ populatedIdCalls dflt pm TDATA
  ++ populatedIdCalls dflt pm TBSS
  ++ populatedIdCalls dflt pm BSS
  ++ (os.bssCustom.map (populatedIdCalls dflt pm)).flatten

theorem regularCalls_ids {T : Type} [DecidableEq T] (dflt : T)
    (os : OutputSectionsModel) (pm : OutputSectionPartMap T) (id : Nat) :
    (regularCalls dflt os pm id).map (fun c => c.1) = regularIdCalls pm id := by
  have h : (regularCalls dflt os pm id).map (fun c => c.1)
      = ((enumAsc 0 (pm.regular.getD (id - NUM_GENERATED_SECTIONS) [])).reverse).map
          (fun _ => id) := by
    simp only [regularCalls, alignmentMapCalls, List.map_map]
    rfl
  rw [h, map_const_replicate, List.length_reverse, enumAsc_length]
  rfl

/-- Claim C5 as stated: `output_order_map` invokes the callback exactly
once per *populated* (section, alignment) pair and once per fixed part, in
the canonical order. -/
def outputOrderMapClaim : Prop :=
  ∀ (T : Type) (inst : DecidableEq T) (dflt : T) (os : OutputSectionsModel)
    (pm : OutputSectionPartMap T),
    (@outputOrderCalls T inst dflt os pm).map (fun c => c.1)
      = @canonicalOrderPopulated T inst dflt pm os

/-- C5, counterexample: the callback is also invoked for *unpopulated*
alignment buckets (the `AlignmentMap` is dense and `map_alignment_map`
maps over every bucket), so an all-default part map still produces one
callback per regular section per bucket — as `test_output_order_map_consistent`
itself relies on. -/
theorem C5_output_order_counterexample : ¬ outputOrderMapClaim := by
  intro h
  have h1 := h Nat inferInstance 0
      ⟨[], [], [], [], fun _ => 0⟩
      ⟨List.replicate 11 [0], 0, 0, 0, 0, 0, 0, 0, 0⟩
  exact absurd h1 (by decide)

/-- C5 (amended): `output_order_map` invokes the callback exactly once per
(section, alignment-bucket) pair — populated or not — and once per fixed
part, in the canonical order: HEADERS; regular RODATA, INIT_ARRAY,
FINI_ARRAY, PREINIT_ARRAY; SHSTRTAB; SYMTAB locals; SYMTAB globals;
STRTAB; RELA_PLT; custom read-only sections; PLT; regular TEXT, INIT,
FINI; custom executable; GOT; regular DATA; custom data; regular TDATA,
TBSS, BSS; custom BSS. -/
theorem C5_output_order (T : Type) [DecidableEq T] (dflt : T)
    (os : OutputSectionsModel) (pm : OutputSectionPartMap T) :
    (outputOrderCalls dflt os pm).map (fun c => c.1) = canonicalOrder pm os := by
  have hfun : (List.map (fun c : Nat × Nat × T => c.1)) ∘ regularCalls dflt os pm
      = regularIdCalls pm := funext (regularCalls_ids dflt os pm)
  unfold outputOrderCalls canonicalOrder
  simp only [List.map_append, List.map_cons, List.map_nil, regularCalls_ids,
    List.map_flatten, List.map_map, hfun]

/-- `merge_parts` (`output_section_part_map.rs` lines 246–267): one value
per output-section id, fixed parts first in the `debug_assert`-pinned id
order, then the regular sections' alignment-bucket slices
(`raw_values()`). -/
def mergeParts {T U : Type} (pm : OutputSectionPartMap T) (cb : List T → U) :
    List U :=
  [cb [pm.fileHeaders], cb [pm.shstrtab],
    cb [pm.symtabLocals, pm.symtabGlobals], cb [pm.symtabStrings],
    cb [pm.got], cb [pm.plt], cb [pm.relaPlt]]
  ++ pm.regular.map cb

/-- C7: `merge_parts` produces a flat table whose entry at index `i`
corresponds to output-section id `i`; each id gets exactly one callback;
SYMTAB's callback sees `[locals, globals]`, the other fixed parts see
one-element slices, and each regular section's callback sees its
alignment-bucket slice. -/
theorem C7_merge_parts (T U : Type) (pm : OutputSectionPartMap T)
    (cb : List T → U) :
    (mergeParts pm cb).length = NUM_GENERATED_SECTIONS + pm.regular.length ∧
    (mergeParts pm cb)[HEADERS]? = some (cb [pm.fileHeaders]) ∧
    (mergeParts pm cb)[SHSTRTAB]? = some (cb [pm.shstrtab]) ∧
    (mergeParts pm cb)[SYMTAB]? = some (cb [pm.symtabLocals, pm.symtabGlobals]) ∧
    (mergeParts pm cb)[STRTAB]? = some (cb [pm.symtabStrings]) ∧
    (mergeParts pm cb)[GOT]? = some (cb [pm.got]) ∧
    (mergeParts pm cb)[PLT]? = some (cb [pm.plt]) ∧
    (mergeParts pm cb)[RELA_PLT]? = some (cb [pm.relaPlt]) ∧
    (∀ j, j < pm.regular.length →
      (mergeParts pm cb)[NUM_GENERATED_SECTIONS + j]?
        = some (cb (pm.regular.getD j []))) := by
  refine ⟨?_, by simp [mergeParts, HEADERS], by simp [mergeParts, SHSTRTAB],
    by simp [mergeParts, SYMTAB], by simp [mergeParts, STRTAB],
    by simp [mergeParts, GOT], by simp [mergeParts, PLT],
    by simp [mergeParts, RELA_PLT], ?_⟩
  · simp only [mergeParts, List.length_append, List.length_map,
      List.length_cons, List.length_nil, NUM_GENERATED_SECTIONS]
  intro j hj
  unfold mergeParts
  rw [List.getElem?_append_right (by simp [NUM_GENERATED_SECTIONS])]
  have hidx : NUM_GENERATED_SECTIONS + j
      - ([cb [pm.fileHeaders], cb [pm.shstrtab],
          cb [pm.symtabLocals, pm.symtabGlobals], cb [pm.symtabStrings],
          cb [pm.got], cb [pm.plt], cb [pm.relaPlt]]).length = j := by
    simp [NUM_GENERATED_SECTIONS]
  rw [hidx, List.getElem?_map, List.getElem?_eq_getElem hj]
  rw [List.getD_eq_getElem _ _ hj]
  rfl

/-- Closed instance discharging the hypotheses of the C7 theorem. -/
theorem C7_merge_parts_witness :
    (mergeParts (⟨[[10], [20]], 1, 2, 3, 4, 5, 6, 7, 8⟩ :
        OutputSectionPartMap Nat) (fun l => l))[8]? = some [20] := by
  exact ((C7_merge_parts Nat (List Nat)
    ⟨[[10], [20]], 1, 2, 3, 4, 5, 6, 7, 8⟩ (fun l => l)).2.2.2.2.2.2.2.2 1
    (by decide)).trans (by decide)

end WildResolution
